import Mathlib

/-!
# Verification of the shepherd-rs contraction-hierarchies routing engine

This file gives a shallow embedding, in Lean 4, of the core of the
`shepherd-rs` routing engine (mutable graph, contraction preprocessing,
witness search, CSR freeze, bidirectional query, shortcut unpacking) and
proves or refutes the specification claims about it.

Modelling conventions:
* Rust `usize` indices become `Nat`; `i32`/`i64` become `Int`.
* `f32`/`f64` edge weights are modelled as `ℚ` (the concrete weights that
  occur in the repository and in all concrete runs below are small
  integers, on which IEEE arithmetic is exact); `f64::INFINITY` is `⊤` in
  `WithTop ℚ`.  The geometric turn-cost function is modelled over `ℝ`.
* `Vec<T>` becomes `List T`; out-of-range reads use `List.getD` with the
  type's default element (in-range behaviour coincides with Rust, and all
  general theorems that depend on indexing carry explicit well-formedness
  hypotheses where the distinction could matter).
* The external `priority_queue::PriorityQueue` crate is modelled as a
  keyed association list kept in insertion order: `push` updates the
  priority of an existing key or appends, `pop` removes the entry with
  the extremal priority, and among equal priorities the earliest-inserted
  entry wins.  The crate itself only guarantees that `pop` returns an
  entry of greatest priority; the tie rule chosen here is the one the
  specification prescribes (dense-id ascending), and every concrete run
  used as evidence below is arranged to be free of priority ties, so the
  runs are independent of the tie rule.
-/

namespace Shepherd

/- Concrete runs below are settled by `decide`; the kernel must therefore be
able to unfold rational arithmetic, whose Batteries definitions are marked
irreducible. -/
unseal Rat.add Rat.mul Rat.inv Rat.sub

/-- Weights as they appear in the running algorithms: a finite rational or `+∞`. -/
abbrev Weight := WithTop ℚ

/-- Metadata of an edge (`EdgeMetadata` in
`routing-engine/src/engine/preprocess/graph.rs`): traversal weight, optional
road name and speed limit, flags, and for shortcut edges the two packed
edge ids `prev_edge`/`next_edge` (absent on original edges). -/
structure EdgeMetadata where
  weight : ℚ
  name : Option String
  speed_limit : Option Nat
  is_one_way : Bool
  is_roundabout : Bool
  prev_edge : Option Nat
  next_edge : Option Nat
deriving Repr, DecidableEq, Inhabited

/-- A directed edge (`Edge` in `routing-engine/src/engine/preprocess/graph.rs`). -/
structure Edge where
  src_id : Nat
  dest_id : Nat
  metadata_index : Nat
deriving Repr, DecidableEq, Inhabited

/-- A node (`Node` in `routing-engine/src/engine/preprocess/graph.rs`); the
`f32` coordinates `lat`/`lon` play no role in any modelled claim and are
omitted. -/
structure Node where
  dense_id : Nat
  osm_id : Int
  rank : Int
  is_contracted : Bool
  is_traffic_light : Bool
deriving Repr, DecidableEq, Inhabited

/-- The mutable graph (`Graph` in
`routing-engine/src/engine/preprocess/graph.rs`): parallel arrays plus
forward/backward adjacency lists of edge ids. -/
structure Graph where
  fwd_edge_list : List (List Nat)
  bwd_edge_list : List (List Nat)
  nodes : List Node
  edges : List Edge
  edge_metadata : List EdgeMetadata
deriving Repr, DecidableEq, Inhabited

/-- In-place update of one position of a list (Rust `vec[i] = f(vec[i])`);
out-of-range indices leave the list unchanged. -/
def modifyAt {α : Type} : List α → Nat → (α → α) → List α
  | [], _, _ => []
  | a :: l, 0, f => f a :: l
  | a :: l, i+1, f => a :: modifyAt l i f

/-- `Graph::get_edge` (list read; in-range behaviour as in Rust). -/
def Graph.getEdge (g : Graph) (i : Nat) : Edge := g.edges.getD i default

/-- `Graph::get_edge_metadata`. -/
def Graph.getMeta (g : Graph) (e : Edge) : EdgeMetadata :=
  g.edge_metadata.getD e.metadata_index default

/-- `Graph::get_node`. -/
def Graph.getNode (g : Graph) (i : Nat) : Node := g.nodes.getD i default

/-- `Graph::get_fwd_neighbors`. -/
def Graph.fwdAdj (g : Graph) (v : Nat) : List Nat := g.fwd_edge_list.getD v []

/-- `Graph::get_bwd_neighbors`. -/
def Graph.bwdAdj (g : Graph) (v : Nat) : List Nat := g.bwd_edge_list.getD v []

/-- `Graph::add_shortcut_edge`: append the edge and register it in both
adjacency lists. -/
def Graph.addShortcutEdge (g : Graph) (src dest mi : Nat) : Graph :=
  let edge_id := g.edges.length
  { g with
    edges := g.edges ++ [⟨src, dest, mi⟩]
    fwd_edge_list := modifyAt g.fwd_edge_list src (fun l => l ++ [edge_id])
    bwd_edge_list := modifyAt g.bwd_edge_list dest (fun l => l ++ [edge_id]) }

/-- One step of the first loop of `remove_edges_from_neighbors`: Rust
`graph.bwd_edge_list[edge.dest_id].retain(|&e| e != edge_idx)`. -/
def removeBwdStep (h : Graph) (e : Nat) : Graph :=
  { h with bwd_edge_list :=
      modifyAt h.bwd_edge_list (h.getEdge e).dest_id (fun l => l.filter (fun x => x ≠ e)) }

/-- One step of the second loop of `remove_edges_from_neighbors`: Rust
`graph.fwd_edge_list[edge.src_id].retain(|&e| e != edge_idx)`. -/
def removeFwdStep (h : Graph) (e : Nat) : Graph :=
  { h with fwd_edge_list :=
      modifyAt h.fwd_edge_list (h.getEdge e).src_id (fun l => l.filter (fun x => x ≠ e)) }

/-- `remove_edges_from_neighbors` in
`routing-engine/src/engine/preprocess/ch_preprocess.rs`: unlink every edge
incident to `c` from the adjacency lists of its neighbours, then clear both
lists at `c`. -/
def remove_edges_from_neighbors (g : Graph) (c : Nat) : Graph :=
  let fwdE := g.fwd_edge_list.getD c []
  let bwdE := g.bwd_edge_list.getD c []
  let g1 := fwdE.foldl removeBwdStep g
  let g2 := bwdE.foldl removeFwdStep g1
  { g2 with
    fwd_edge_list := g2.fwd_edge_list.set c []
    bwd_edge_list := g2.bwd_edge_list.set c [] }

theorem modifyAt_getD {α : Type} (l : List α) (i : Nat) (f : α → α) (d : α)
    (hd : f d = d) (j : Nat) :
    (modifyAt l i f).getD j d = if j = i then f (l.getD j d) else l.getD j d := by
  induction l generalizing i j with
  | nil =>
    simp only [modifyAt, List.getD_nil]
    by_cases h : j = i <;> simp [h, hd]
  | cons a t ih =>
    cases i with
    | zero =>
      cases j with
      | zero => simp [modifyAt]
      | succ j => simp [modifyAt]
    | succ i =>
      cases j with
      | zero => simp [modifyAt]
      | succ j =>
        simp only [modifyAt, List.getD_cons_succ]
        rw [ih]
        by_cases h : j = i <;> simp [h]

theorem foldl_removeBwdStep_frame (l : List Nat) (h : Graph) :
    (List.foldl removeBwdStep h l).edges = h.edges ∧
    (List.foldl removeBwdStep h l).edge_metadata = h.edge_metadata ∧
    (List.foldl removeBwdStep h l).nodes = h.nodes ∧
    (List.foldl removeBwdStep h l).fwd_edge_list = h.fwd_edge_list := by
  induction l generalizing h with
  | nil => exact ⟨rfl, rfl, rfl, rfl⟩
  | cons e t ih => simpa [removeBwdStep] using ih (removeBwdStep h e)

theorem foldl_removeFwdStep_frame (l : List Nat) (h : Graph) :
    (List.foldl removeFwdStep h l).edges = h.edges ∧
    (List.foldl removeFwdStep h l).edge_metadata = h.edge_metadata ∧
    (List.foldl removeFwdStep h l).nodes = h.nodes ∧
    (List.foldl removeFwdStep h l).bwd_edge_list = h.bwd_edge_list := by
  induction l generalizing h with
  | nil => exact ⟨rfl, rfl, rfl, rfl⟩
  | cons e t ih => simpa [removeFwdStep] using ih (removeFwdStep h e)

theorem foldl_removeBwdStep_bwd (l : List Nat) (h : Graph) (u : Nat) :
    (List.foldl removeBwdStep h l).bwd_edge_list.getD u [] =
      (h.bwd_edge_list.getD u []).filter
        (fun x => decide ¬(x ∈ l ∧ (h.getEdge x).dest_id = u)) := by
  induction l generalizing h with
  | nil => simp
  | cons e t ih =>
    have hget : ∀ x, (removeBwdStep h e).getEdge x = h.getEdge x := fun _ => rfl
    have hstep : (removeBwdStep h e).bwd_edge_list.getD u [] =
        if u = (h.getEdge e).dest_id then
          (h.bwd_edge_list.getD u []).filter (fun x => x ≠ e)
        else h.bwd_edge_list.getD u [] := by
      simp only [removeBwdStep]
      exact modifyAt_getD _ _ _ _ rfl u
    rw [List.foldl_cons, ih (removeBwdStep h e)]
    simp only [hget, hstep]
    by_cases hu : u = (h.getEdge e).dest_id
    · rw [if_pos hu, List.filter_filter]
      refine List.filter_congr ?_
      intro x _
      by_cases hx : x = e
      · subst hx; simp [hu]
      · simp [hx]
    · rw [if_neg hu]
      refine List.filter_congr ?_
      intro x _
      by_cases hx : x = e
      · subst hx
        simp only [List.mem_cons, true_or, true_and, decide_not]
        have : ¬((h.getEdge x).dest_id = u) := fun hh => hu hh.symm
        simp [this]
      · simp [hx]

theorem foldl_removeFwdStep_fwd (l : List Nat) (h : Graph) (u : Nat) :
    (List.foldl removeFwdStep h l).fwd_edge_list.getD u [] =
      (h.fwd_edge_list.getD u []).filter
        (fun x => decide ¬(x ∈ l ∧ (h.getEdge x).src_id = u)) := by
  induction l generalizing h with
  | nil => simp
  | cons e t ih =>
    have hget : ∀ x, (removeFwdStep h e).getEdge x = h.getEdge x := fun _ => rfl
    have hstep : (removeFwdStep h e).fwd_edge_list.getD u [] =
        if u = (h.getEdge e).src_id then
          (h.fwd_edge_list.getD u []).filter (fun x => x ≠ e)
        else h.fwd_edge_list.getD u [] := by
      simp only [removeFwdStep]
      exact modifyAt_getD _ _ _ _ rfl u
    rw [List.foldl_cons, ih (removeFwdStep h e)]
    simp only [hget, hstep]
    by_cases hu : u = (h.getEdge e).src_id
    · rw [if_pos hu, List.filter_filter]
      refine List.filter_congr ?_
      intro x _
      by_cases hx : x = e
      · subst hx; simp [hu]
      · simp [hx]
    · rw [if_neg hu]
      refine List.filter_congr ?_
      intro x _
      by_cases hx : x = e
      · subst hx
        simp only [List.mem_cons, true_or, true_and, decide_not]
        have : ¬((h.getEdge x).src_id = u) := fun hh => hu hh.symm
        simp [this]
      · simp [hx]

theorem getD_set_nil {α : Type} (l : List (List α)) (c u : Nat) :
    (l.set c []).getD u [] = if u = c then [] else l.getD u [] := by
  induction l generalizing c u with
  | nil => simp
  | cons a t ih =>
    cases c with
    | zero =>
      cases u with
      | zero => simp
      | succ u => simp
    | succ c =>
      cases u with
      | zero => simp
      | succ u =>
        simp only [List.set_cons_succ, List.getD_cons_succ]
        rw [ih]
        by_cases h : u = c <;> simp [h]

/-- C9: `remove_edges_from_neighbors(graph, v)` removes every edge of
`fwd_adj[v]` from the backward list of that edge's destination and every
edge of `bwd_adj[v]` from the forward list of its source, clears both
adjacency lists at `v`, and leaves `edges[]` and `edge_metadata[]`
completely unchanged.  The two filter equations characterise the adjacency
lists after the call exactly: a list loses precisely the incident edges
that pointed at it, and nothing else. -/
theorem c9_remove_incident_frame (g : Graph) (c : Nat) :
    (remove_edges_from_neighbors g c).edges = g.edges ∧
    (remove_edges_from_neighbors g c).edge_metadata = g.edge_metadata ∧
    (∀ i, (remove_edges_from_neighbors g c).getEdge i = g.getEdge i) ∧
    (∀ u, (remove_edges_from_neighbors g c).bwd_edge_list.getD u [] =
      if u = c then [] else
        (g.bwd_edge_list.getD u []).filter
          (fun x => decide ¬(x ∈ g.fwd_edge_list.getD c [] ∧ (g.getEdge x).dest_id = u))) ∧
    (∀ u, (remove_edges_from_neighbors g c).fwd_edge_list.getD u [] =
      if u = c then [] else
        (g.fwd_edge_list.getD u []).filter
          (fun x => decide ¬(x ∈ g.bwd_edge_list.getD c [] ∧ (g.getEdge x).src_id = u))) := by
  obtain ⟨hE1, hM1, hN1, hF1⟩ := foldl_removeBwdStep_frame (g.fwd_edge_list.getD c []) g
  obtain ⟨hE2, hM2, hN2, hB2⟩ :=
    foldl_removeFwdStep_frame (g.bwd_edge_list.getD c [])
      (List.foldl removeBwdStep g (g.fwd_edge_list.getD c []))
  have hEdges : (remove_edges_from_neighbors g c).edges = g.edges := by
    show (List.foldl removeFwdStep _ _).edges = g.edges
    rw [hE2, hE1]
  have hMeta : (remove_edges_from_neighbors g c).edge_metadata = g.edge_metadata := by
    show (List.foldl removeFwdStep _ _).edge_metadata = g.edge_metadata
    rw [hM2, hM1]
  refine ⟨hEdges, hMeta, ?_, ?_, ?_⟩
  · intro i
    show (remove_edges_from_neighbors g c).edges.getD i default = _
    rw [hEdges]; rfl
  · intro u
    show ((List.foldl removeFwdStep _ _).bwd_edge_list.set c []).getD u [] = _
    rw [getD_set_nil, hB2, foldl_removeBwdStep_bwd]
  · intro u
    show ((List.foldl removeFwdStep _ _).fwd_edge_list.set c []).getD u [] = _
    rw [getD_set_nil, foldl_removeFwdStep_fwd, hF1]
    have hget : ∀ x, (List.foldl removeBwdStep g (g.fwd_edge_list.getD c [])).getEdge x =
        g.getEdge x := by
      intro x
      show (List.foldl removeBwdStep g (g.fwd_edge_list.getD c [])).edges.getD x default = _
      rw [hE1]; rfl
    simp only [hget]

/-! ## CSR graph (`routing-engine/src/engine/csr/csr_graph.rs`) -/

/-- `CSRNode`. -/
structure CSRNode where
  id : Nat
  osm_id : Int
  rank : Int
  flags : Nat
deriving Repr, DecidableEq, Inhabited

/-- `CSREdgeHot`: the cache-hot per-edge record `{id, target, weight}`. -/
structure CSREdgeHot where
  id : Nat
  target : Nat
  weight : ℚ
deriving Repr, DecidableEq, Inhabited

/-- `CSREdgeCold`: the cold per-edge record. -/
structure CSREdgeCold where
  id : Nat
  name : Option String
  from_node : Nat
  to_node : Nat
  prev_edge : Option Nat
  next_edge : Option Nat
deriving Repr, DecidableEq, Inhabited

/-- `CSRGraph`. -/
structure CSRGraph where
  cols_fwd : List Nat
  row_fwd_ptr : List Nat
  cols_bwd : List Nat
  row_bwd_ptr : List Nat
  values_hot : List CSREdgeHot
  values_cold : List CSREdgeCold
  nodes : List CSRNode
deriving Repr, DecidableEq, Inhabited

/-- Mutable state of `CSRGraph::from_preprocessed_graph` while one of the two
passes runs: the shared `values_hot`/`values_cold` arrays and the pass's own
`cols`/`row_ptr` arrays. -/
structure BuildSt where
  hot : List CSREdgeHot
  cold : List CSREdgeCold
  cols : List Nat
  ptr : List Nat
deriving Repr, DecidableEq, Inhabited

/-- The hot record pushed for edge `id` during the forward pass
(`target` is the destination). -/
def hotFwd (g : Graph) (id : Nat) : CSREdgeHot :=
  ⟨id, (g.getEdge id).dest_id, (g.getMeta (g.getEdge id)).weight⟩

/-- The hot record pushed for edge `id` during the backward pass
(`target` is the source). -/
def hotBwd (g : Graph) (id : Nat) : CSREdgeHot :=
  ⟨id, (g.getEdge id).src_id, (g.getMeta (g.getEdge id)).weight⟩

/-- The cold record pushed for edge `id` (identical in both passes). -/
def coldOf (g : Graph) (id : Nat) : CSREdgeCold :=
  ⟨id, (g.getMeta (g.getEdge id)).name, (g.getEdge id).src_id, (g.getEdge id).dest_id,
    (g.getMeta (g.getEdge id)).prev_edge, (g.getMeta (g.getEdge id)).next_edge⟩

/-- Inner loop body of a pass: push a hot/cold pair and record its position
in `cols` (`new_index = values_hot.len()`). -/
def csrItem (hotRec : Nat → CSREdgeHot) (coldRec : Nat → CSREdgeCold)
    (st : BuildSt) (id : Nat) : BuildSt :=
  { st with
    hot := st.hot ++ [hotRec id]
    cold := st.cold ++ [coldRec id]
    cols := st.cols ++ [st.hot.length] }

/-- Outer loop body of a pass: process one adjacency row, then close it by
pushing `cols.len()` into `row_ptr`. -/
def csrRow (hotRec : Nat → CSREdgeHot) (coldRec : Nat → CSREdgeCold)
    (st : BuildSt) (row : List Nat) : BuildSt :=
  let st := row.foldl (csrItem hotRec coldRec) st
  { st with ptr := st.ptr ++ [st.cols.length] }

/-- `CSRGraph::from_preprocessed_graph`: forward pass over `fwd_edge_list`,
backward pass over `bwd_edge_list` appending into the same hot/cold arrays,
then `values_cold` is sorted by original edge id (`par_sort_by`; every id
occurs twice, with identical records, so any by-id sort yields this list)
and the node array is materialised. -/
def from_preprocessed_graph (g : Graph) : CSRGraph :=
  let f := g.fwd_edge_list.foldl (csrRow (hotFwd g) (coldOf g)) ⟨[], [], [], [0]⟩
  let b := g.bwd_edge_list.foldl (csrRow (hotBwd g) (coldOf g)) ⟨f.hot, f.cold, [], [0]⟩
  { cols_fwd := f.cols
    row_fwd_ptr := f.ptr
    cols_bwd := b.cols
    row_bwd_ptr := b.ptr
    values_hot := b.hot
    values_cold := b.cold.mergeSort (fun e1 e2 => e1.id ≤ e2.id)
    nodes := g.nodes.map (fun n => ⟨n.dense_id, n.osm_id, n.rank, 0⟩) }

/-- The common body of `CSRGraph::fwd_neighbors` and `CSRGraph::bwd_neighbors`:
the hot records of the value indices in `cols[row_ptr[node] .. row_ptr[node+1]]`. -/
def sliceNeighbors (ptr cols : List Nat) (hot : List CSREdgeHot) (node : Nat) :
    List CSREdgeHot :=
  let start := ptr.getD node 0
  let stop := ptr.getD (node + 1) 0
  ((cols.drop start).take (stop - start)).map (fun i => hot.getD i default)

/-- `CSRGraph::fwd_neighbors`. -/
def CSRGraph.fwdNeighbors (csr : CSRGraph) (node : Nat) : List CSREdgeHot :=
  sliceNeighbors csr.row_fwd_ptr csr.cols_fwd csr.values_hot node

/-- `CSRGraph::bwd_neighbors`. -/
def CSRGraph.bwdNeighbors (csr : CSRGraph) (node : Nat) : List CSREdgeHot :=
  sliceNeighbors csr.row_bwd_ptr csr.cols_bwd csr.values_hot node

/-- Total number of edge slots in a list of adjacency rows. -/
def sumLen (rows : List (List Nat)) : Nat := (rows.map List.length).sum

theorem csrItem_fold (hotRec : Nat → CSREdgeHot) (coldRec : Nat → CSREdgeCold)
    (row : List Nat) (st : BuildSt) :
    row.foldl (csrItem hotRec coldRec) st =
      ⟨st.hot ++ row.map hotRec, st.cold ++ row.map coldRec,
        st.cols ++ List.range' st.hot.length row.length, st.ptr⟩ := by
  induction row generalizing st with
  | nil => simp
  | cons id t ih =>
    rw [List.foldl_cons, ih]
    simp [csrItem, List.range'_succ]

theorem csrRow_fold (hotRec : Nat → CSREdgeHot) (coldRec : Nat → CSREdgeCold)
    (rows : List (List Nat)) (st : BuildSt) :
    rows.foldl (csrRow hotRec coldRec) st =
      ⟨st.hot ++ rows.flatten.map hotRec, st.cold ++ rows.flatten.map coldRec,
        st.cols ++ List.range' st.hot.length (sumLen rows),
        st.ptr ++ (List.range rows.length).map
          (fun k => st.cols.length + sumLen (rows.take (k + 1)))⟩ := by
  induction rows generalizing st with
  | nil => simp [sumLen]
  | cons r t ih =>
    rw [List.foldl_cons]
    have hrow : csrRow hotRec coldRec st r =
        ⟨st.hot ++ r.map hotRec, st.cold ++ r.map coldRec,
          st.cols ++ List.range' st.hot.length r.length,
          st.ptr ++ [st.cols.length + r.length]⟩ := by
      simp [csrRow, csrItem_fold]
    rw [hrow, ih]
    congr 1
    · simp
    · simp
    · have hl : (st.hot ++ r.map hotRec).length = st.hot.length + r.length := by simp
      rw [List.append_assoc, hl, List.range'_append_1]
      have hs : sumLen t + r.length = sumLen (r :: t) := by
        simp [sumLen, Nat.add_comm]
      rw [hs]
    · have hl : (st.cols ++ List.range' st.hot.length r.length).length =
        st.cols.length + r.length := by simp
      rw [List.append_assoc, hl]
      refine congrArg (st.ptr ++ ·) ?_
      rw [List.length_cons, List.range_succ_eq_map, List.map_cons, List.map_map]
      refine congrArg₂ List.cons ?_ ?_
      · simp [sumLen]
      · refine List.map_congr_left ?_
        intro k _
        simp [sumLen, Function.comp, Nat.add_assoc]

theorem sumLen_append (a b : List (List Nat)) : sumLen (a ++ b) = sumLen a + sumLen b := by
  simp [sumLen]

theorem sumLen_take_succ (rows : List (List Nat)) (u : Nat) (hu : u < rows.length) :
    sumLen (rows.take (u + 1)) = sumLen (rows.take u) + (rows.getD u []).length := by
  rw [List.take_succ, sumLen_append]
  have : rows[u]? = some (rows.getD u []) := by
    rw [List.getElem?_eq_getElem hu]
    simp [List.getD_eq_getElem?_getD, List.getElem?_eq_getElem hu]
  rw [this]
  simp [sumLen]

theorem sumLen_take_le (rows : List (List Nat)) (u : Nat) :
    sumLen (rows.take u) ≤ sumLen rows := by
  conv_rhs => rw [← List.take_append_drop u rows]
  rw [sumLen_append]
  omega

theorem drop_length_add {α : Type} (l1 l2 : List α) (n : Nat) :
    (l1 ++ l2).drop (l1.length + n) = l2.drop n := by
  induction l1 with
  | nil => simp
  | cons a t ih => simp [Nat.succ_add, ih]

theorem flatten_drop_sumLen (rows : List (List Nat)) (u : Nat) :
    rows.flatten.drop (sumLen (rows.take u)) = (rows.drop u).flatten := by
  induction rows generalizing u with
  | nil => simp [sumLen]
  | cons r t ih =>
    cases u with
    | zero => simp [sumLen]
    | succ u =>
      have h1 : sumLen ((r :: t).take (u + 1)) = r.length + sumLen (t.take u) := by
        simp [sumLen]
      rw [h1, List.flatten_cons, drop_length_add, List.drop_succ_cons, ih]

theorem range'_map_getD {α : Type} (l : List α) (d : α) :
    ∀ (k s : Nat), s + k ≤ l.length →
      (List.range' s k).map (fun i => l.getD i d) = (l.drop s).take k := by
  intro k
  induction k with
  | zero => intro s _; simp
  | succ k ih =>
    intro s h
    have hs : s < l.length := by omega
    rw [List.range'_succ, List.map_cons, ih (s + 1) (by omega),
      List.drop_eq_getElem_cons hs]
    have : l.getD s d = l[s] := by
      simp [List.getD_eq_getElem?_getD, List.getElem?_eq_getElem hs]
    rw [this, List.take_succ_cons]

theorem range'_drop_take (base total s lu : Nat) (h1 : s + lu ≤ total) :
    ((List.range' base total).drop s).take lu = List.range' (base + s) lu := by
  have h2 : total = (total - s) + s := by omega
  rw [h2, ← List.range'_append_1, List.drop_left' (by simp)]
  have h3 : total - s = (total - s - lu) + lu := by omega
  rw [h3, ← List.range'_append_1, List.take_left' (by simp)]

theorem sliceNeighbors_form (rows : List (List Nat)) (hotRec : Nat → CSREdgeHot)
    (base : Nat) (hotAll : List CSREdgeHot)
    (hhot : ∀ j, j < sumLen rows →
      hotAll.getD (base + j) default = (rows.flatten.map hotRec).getD j default)
    (u : Nat) :
    sliceNeighbors
      (0 :: (List.range rows.length).map (fun k => sumLen (rows.take (k + 1))))
      (List.range' base (sumLen rows)) hotAll u =
    (rows.getD u []).map hotRec := by
  have hptr : ∀ v, (0 :: (List.range rows.length).map
      (fun k => sumLen (rows.take (k + 1)))).getD v 0 =
      if v ≤ rows.length then sumLen (rows.take v) else 0 := by
    intro v
    cases v with
    | zero => simp [sumLen]
    | succ j =>
      rw [List.getD_cons_succ, List.getD_eq_getElem?_getD, List.getElem?_map]
      by_cases hj : j < rows.length
      · rw [List.getElem?_range hj]
        simp [Nat.succ_le_of_lt hj]
      · rw [List.getElem?_eq_none (by simpa using hj)]
        have : ¬(j + 1 ≤ rows.length) := by omega
        simp [this]
  simp only [sliceNeighbors, hptr]
  by_cases hu : u < rows.length
  · rw [if_pos (Nat.le_of_lt hu), if_pos (Nat.succ_le_of_lt hu)]
    have hlen : sumLen (rows.take (u + 1)) =
        sumLen (rows.take u) + (rows.getD u []).length := sumLen_take_succ rows u hu
    have hle : sumLen (rows.take (u + 1)) ≤ sumLen rows := sumLen_take_le rows (u + 1)
    rw [hlen, Nat.add_sub_cancel_left,
      range'_drop_take base (sumLen rows) (sumLen (rows.take u)) (rows.getD u []).length
        (by omega)]
    rw [← List.map_add_range' base, List.map_map]
    have hcongr : ∀ j ∈ List.range' (sumLen (rows.take u)) (rows.getD u []).length,
        ((fun i => hotAll.getD i default) ∘ (base + ·)) j =
        (fun i => (rows.flatten.map hotRec).getD i default) j := by
      intro j hj
      rw [List.mem_range'_1] at hj
      exact hhot j (by omega)
    rw [List.map_congr_left hcongr]
    have hlen2 : (rows.flatten.map hotRec).length = sumLen rows := by
      simp only [sumLen, List.length_map, List.length_flatten]
    rw [range'_map_getD _ _ _ _ (by rw [hlen2]; omega)]
    rw [← List.map_drop, ← List.map_take, flatten_drop_sumLen]
    have hdrop : rows.drop u = rows.getD u [] :: rows.drop (u + 1) := by
      rw [List.drop_eq_getElem_cons hu]
      congr 1
      simp [List.getD_eq_getElem?_getD, List.getElem?_eq_getElem hu]
    rw [hdrop, List.flatten_cons, List.take_left]
  · have hrhs : rows.getD u [] = [] := by
      rw [List.getD_eq_getElem?_getD, List.getElem?_eq_none (by omega)]
      rfl
    rw [hrhs, List.map_nil]
    rcases Nat.lt_or_ge rows.length u with hgt | hge
    · rw [if_neg (show ¬(u ≤ rows.length) by omega),
        if_neg (show ¬(u + 1 ≤ rows.length) by omega)]
      simp
    · rw [if_pos (show u ≤ rows.length by omega),
        if_neg (show ¬(u + 1 ≤ rows.length) by omega)]
      simp

theorem getD_append_left {α : Type} {l1 l2 : List α} {j : Nat} (d : α)
    (hj : j < l1.length) : (l1 ++ l2).getD j d = l1.getD j d := by
  rw [List.getD_eq_getElem?_getD, List.getElem?_append_left hj,
    ← List.getD_eq_getElem?_getD]

theorem getD_append_right {α : Type} (l1 l2 : List α) (j : Nat) (d : α) :
    (l1 ++ l2).getD (l1.length + j) d = l2.getD j d := by
  rw [List.getD_eq_getElem?_getD, List.getElem?_append_right (by omega),
    ← List.getD_eq_getElem?_getD]
  congr 1
  omega

/-- C7: freezing a mutable `Graph` with `from_preprocessed_graph` preserves
adjacency exactly: for every node `u`, the hot records yielded by
`fwd_neighbors(u)` on the CSR are, in order, one record per edge id in
`G.fwd_edge_list[u]`, with `target` the edge's destination and the same
weight; symmetrically `bwd_neighbors(u)` yields one record per edge id in
`G.bwd_edge_list[u]`, with `target` the edge's source.  In particular the
multiset of (neighbour, weight) pairs of `u` is identical in `G` and in
`CSR(G)`, in both directions. -/
theorem c7_csr_preserves_adjacency (g : Graph) (u : Nat) :
    (from_preprocessed_graph g).fwdNeighbors u =
      (g.fwd_edge_list.getD u []).map
        (fun id => ⟨id, (g.getEdge id).dest_id, (g.getMeta (g.getEdge id)).weight⟩) ∧
    (from_preprocessed_graph g).bwdNeighbors u =
      (g.bwd_edge_list.getD u []).map
        (fun id => ⟨id, (g.getEdge id).src_id, (g.getMeta (g.getEdge id)).weight⟩) := by
  have hF : g.fwd_edge_list.foldl (csrRow (hotFwd g) (coldOf g)) ⟨[], [], [], [0]⟩ =
      ⟨g.fwd_edge_list.flatten.map (hotFwd g), g.fwd_edge_list.flatten.map (coldOf g),
        List.range' 0 (sumLen g.fwd_edge_list),
        0 :: (List.range g.fwd_edge_list.length).map
          (fun k => sumLen (g.fwd_edge_list.take (k + 1)))⟩ := by
    rw [csrRow_fold]
    simp
  set F : BuildSt :=
    ⟨g.fwd_edge_list.flatten.map (hotFwd g), g.fwd_edge_list.flatten.map (coldOf g),
      List.range' 0 (sumLen g.fwd_edge_list),
      0 :: (List.range g.fwd_edge_list.length).map
        (fun k => sumLen (g.fwd_edge_list.take (k + 1)))⟩ with hFdef
  have hB : g.bwd_edge_list.foldl (csrRow (hotBwd g) (coldOf g)) ⟨F.hot, F.cold, [], [0]⟩ =
      ⟨F.hot ++ g.bwd_edge_list.flatten.map (hotBwd g),
        F.cold ++ g.bwd_edge_list.flatten.map (coldOf g),
        List.range' F.hot.length (sumLen g.bwd_edge_list),
        0 :: (List.range g.bwd_edge_list.length).map
          (fun k => sumLen (g.bwd_edge_list.take (k + 1)))⟩ := by
    rw [csrRow_fold]
    simp
  have hcsr : from_preprocessed_graph g =
      { cols_fwd := F.cols
        row_fwd_ptr := F.ptr
        cols_bwd := List.range' F.hot.length (sumLen g.bwd_edge_list)
        row_bwd_ptr := 0 :: (List.range g.bwd_edge_list.length).map
          (fun k => sumLen (g.bwd_edge_list.take (k + 1)))
        values_hot := F.hot ++ g.bwd_edge_list.flatten.map (hotBwd g)
        values_cold := (F.cold ++ g.bwd_edge_list.flatten.map (coldOf g)).mergeSort
          (fun e1 e2 => e1.id ≤ e2.id)
        nodes := g.nodes.map (fun n => ⟨n.dense_id, n.osm_id, n.rank, 0⟩) } := by
    simp only [from_preprocessed_graph]
    rw [hF, hB]
  have hhotlen : F.hot.length = sumLen g.fwd_edge_list := by
    rw [hFdef]
    simp only [sumLen, List.length_map, List.length_flatten]
  constructor
  · show sliceNeighbors (from_preprocessed_graph g).row_fwd_ptr
      (from_preprocessed_graph g).cols_fwd (from_preprocessed_graph g).values_hot u = _
    rw [hcsr]
    have hform := sliceNeighbors_form g.fwd_edge_list (hotFwd g) 0
      (F.hot ++ g.bwd_edge_list.flatten.map (hotBwd g))
      (fun j hj => by
        rw [Nat.zero_add, getD_append_left _ (by omega), hFdef])
      u
    rw [show (F.cols : List Nat) = List.range' 0 (sumLen g.fwd_edge_list) from rfl,
      show (F.ptr : List Nat) = 0 :: (List.range g.fwd_edge_list.length).map
        (fun k => sumLen (g.fwd_edge_list.take (k + 1))) from rfl]
    rw [hform]
    refine List.map_congr_left ?_
    intro id _
    rfl
  · show sliceNeighbors (from_preprocessed_graph g).row_bwd_ptr
      (from_preprocessed_graph g).cols_bwd (from_preprocessed_graph g).values_hot u = _
    rw [hcsr]
    have hform := sliceNeighbors_form g.bwd_edge_list (hotBwd g) F.hot.length
      (F.hot ++ g.bwd_edge_list.flatten.map (hotBwd g))
      (fun j hj => by rw [getD_append_right])
      u
    rw [hform]
    refine List.map_congr_left ?_
    intro id _
    rfl

/-! ## Turn cost (`routing-engine/src/engine/utils.rs`, `calc_turn_cost`) -/

/-- x-component of `glam::Vec2::normalize` (`v * v.length().recip()`),
where `length = sqrt(x^2 + y^2)`. -/
noncomputable def normX (x y : ℝ) : ℝ := x / Real.sqrt (x ^ 2 + y ^ 2)

/-- y-component of `glam::Vec2::normalize`. -/
noncomputable def normY (x y : ℝ) : ℝ := y / Real.sqrt (x ^ 2 + y ^ 2)

/-- `calc_turn_cost` from `routing-engine/src/engine/utils.rs`: unit vectors
`curr - prev` and `next - curr`, their dot product clamped to `[-1, 1]`
(`clamp(min, max) = self.max(min).min(max)`), and `1 + k * (1 - dot)` with
`k = 1`.  `f32` arithmetic is modelled over `ℝ`. -/
noncomputable def calc_turn_cost
    (prev_lat prev_lon curr_lat curr_lon next_lat next_lon : ℝ) : ℝ :=
  1 + 1 * (1 - min (max
    (normX (curr_lat - prev_lat) (curr_lon - prev_lon) *
        normX (next_lat - curr_lat) (next_lon - curr_lon) +
      normY (curr_lat - prev_lat) (curr_lon - prev_lon) *
        normY (next_lat - curr_lat) (next_lon - curr_lon)) (-1)) 1)

theorem sqrt_sq_add_sq_pos (x y : ℝ) (h : ¬(x = 0 ∧ y = 0)) :
    0 < Real.sqrt (x ^ 2 + y ^ 2) := by
  apply Real.sqrt_pos.mpr
  rcases Classical.em (x = 0) with hx | hx
  · have hy : y ≠ 0 := fun hy => h ⟨hx, hy⟩
    have : 0 < y ^ 2 := by positivity
    nlinarith [sq_nonneg x]
  · have : 0 < x ^ 2 := by positivity
    nlinarith [sq_nonneg y]

theorem turn_dot_collinear (dx dy t : ℝ) (hv : ¬(dx = 0 ∧ dy = 0)) (ht : t ≠ 0) :
    normX dx dy * normX (t * dx) (t * dy) + normY dx dy * normY (t * dx) (t * dy) =
      t / |t| := by
  have hn : 0 < Real.sqrt (dx ^ 2 + dy ^ 2) := sqrt_sq_add_sq_pos dx dy hv
  have hs : Real.sqrt (dx ^ 2 + dy ^ 2) ^ 2 = dx ^ 2 + dy ^ 2 :=
    Real.sq_sqrt (by positivity)
  have ht2 : Real.sqrt ((t * dx) ^ 2 + (t * dy) ^ 2) =
      |t| * Real.sqrt (dx ^ 2 + dy ^ 2) := by
    have : (t * dx) ^ 2 + (t * dy) ^ 2 = t ^ 2 * (dx ^ 2 + dy ^ 2) := by ring
    rw [this, Real.sqrt_mul (sq_nonneg t), Real.sqrt_sq_eq_abs]
  have habs : (0:ℝ) < |t| := abs_pos.mpr ht
  rw [normX, normX, normY, normY, ht2]
  have hsum : dx ^ 2 + dy ^ 2 ≠ 0 := by nlinarith [hs, hn]
  field_simp
  linear_combination (-(t * |t|)) * hs

/-- C5: the turn-cost multiplier.  `calc_turn_cost` forms the unit vectors
`curr - prev` and `next - curr`, clamps their dot product to `[-1, 1]` and
returns `1 + k * (1 - dot)` with `k = 1` (this is its very definition,
translated from `routing-engine/src/engine/utils.rs`); consequently on a
straight-line three-point input (`next - curr` a positive multiple `t` of
`curr - prev`) the multiplier is exactly `1`, and on a U-turn
(`next - curr` a negative multiple of `curr - prev`) it is exactly `3`,
hence within the claimed band `2 ≤ m ≤ 3`. -/
theorem c5_calc_turn_cost (px py cx cy nx ny t : ℝ)
    (hv : ¬(cx - px = 0 ∧ cy - py = 0))
    (h2x : nx - cx = t * (cx - px)) (h2y : ny - cy = t * (cy - py)) :
    (0 < t → calc_turn_cost px py cx cy nx ny = 1) ∧
    (t < 0 → 2 ≤ calc_turn_cost px py cx cy nx ny ∧
      calc_turn_cost px py cx cy nx ny ≤ 3) := by
  have hbody : ∀ ht : t ≠ 0, calc_turn_cost px py cx cy nx ny =
      1 + 1 * (1 - min (max (t / |t|) (-1)) 1) := by
    intro ht
    rw [calc_turn_cost, h2x, h2y, turn_dot_collinear _ _ _ hv ht]
  constructor
  · intro hpos
    rw [hbody (ne_of_gt hpos), abs_of_pos hpos, div_self (ne_of_gt hpos)]
    norm_num
  · intro hneg
    rw [hbody (ne_of_lt hneg), abs_of_neg hneg]
    have ht0 : t ≠ 0 := ne_of_lt hneg
    rw [div_neg, div_self ht0]
    norm_num

/-- Witness for C5: the straight-line input `(0,0), (1,0), (2,0)` (with
`t = 1`) satisfies the hypotheses, and the theorem instantiates to it. -/
theorem c5_calc_turn_cost_witness :
    ¬((1:ℝ) - 0 = 0 ∧ (0:ℝ) - 0 = 0) ∧
    (((0:ℝ) < 1 → calc_turn_cost 0 0 1 0 2 0 = 1) ∧
      ((1:ℝ) < 0 → 2 ≤ calc_turn_cost 0 0 1 0 2 0 ∧ calc_turn_cost 0 0 1 0 2 0 ≤ 3)) :=
  ⟨by norm_num,
    c5_calc_turn_cost 0 0 1 0 2 0 1 (by norm_num) (by norm_num) (by norm_num)⟩

/-! ## Priority queue model (external `priority_queue::PriorityQueue` crate)

All three uses in the repository order their heap so that `pop` returns the
entry with the **smallest** underlying value (`Reverse(importance)` in the
contractor, a reversed `Ord` on the `f64` weight in the witness search and
the query).  The queue is keyed: `push` overwrites the priority of an
existing key.  Tie behaviour of the crate is unspecified; here the
earliest-inserted entry wins (see the header comment). -/

/-- `PriorityQueue::push`: update the priority of an existing key, or append. -/
def qpush {a : Type} (q : List (Nat × a)) (k : Nat) (p : a) : List (Nat × a) :=
  if q.any (fun e => e.1 == k) then
    q.map (fun e => if e.1 = k then (k, p) else e)
  else q ++ [(k, p)]

/-- The entry `pop` will return: smallest priority, earliest-inserted on ties. -/
def qleast {a : Type} [LinearOrder a] : List (Nat × a) → Option (Nat × a)
  | [] => none
  | e :: rest =>
    match qleast rest with
    | none => some e
    | some b => some (if e.2 ≤ b.2 then e else b)

/-- Remove the first entry with the given key. -/
def qeraseKey {a : Type} : List (Nat × a) → Nat → List (Nat × a)
  | [], _ => []
  | e :: rest, k => if e.1 = k then rest else e :: qeraseKey rest k

/-- `PriorityQueue::pop` (for the min-ordered heaps used here). -/
def qpopMin {a : Type} [LinearOrder a] (q : List (Nat × a)) :
    Option ((Nat × a) × List (Nat × a)) :=
  (qleast q).map (fun b => (b, qeraseKey q b.1))

/-- `PriorityQueue::change_priority`: update the priority of an existing key;
no effect on an absent key. -/
def qchange {a : Type} (q : List (Nat × a)) (k : Nat) (p : a) : List (Nat × a) :=
  q.map (fun e => if e.1 = k then (k, p) else e)

/-! ## Witness search (`src/src/engine/preprocess/witness_search.rs`) -/

/-- The reusable witness searcher `Dijkstra`: source, ignored node, the
tentative-weight array and the node-keyed min-queue. -/
structure Dijkstra where
  src : Nat
  ignore : Nat
  weights : List Weight
  queue : List (Nat × Weight)
deriving Repr, DecidableEq

/-- `Dijkstra::new(num_nodes)`. -/
def Dijkstra.new (num_nodes : Nat) : Dijkstra :=
  ⟨0, 0, List.replicate num_nodes ⊤, []⟩

/-- `Dijkstra::init(src, ignore)`: reset weights to `+∞` and the queue to
empty, remember `src`/`ignore`, push `src` with key `0` and set
`weights[src] = 0`. -/
def Dijkstra.init (d : Dijkstra) (src ignore : Nat) : Dijkstra :=
  { src := src
    ignore := ignore
    weights := (d.weights.map (fun _ => (⊤ : Weight))).set src 0
    queue := qpush [] src 0 }

/-- One relaxation of the witness search: skip edges into `ignore`, skip a
`+∞` tentative value, update weight and queue when the new value improves
(`weight < adj_weight || adj_weight == INFINITY`). -/
def relaxStep (g : Graph) (curr : Nat) (d : Dijkstra) (id : Nat) : Dijkstra :=
  let e := g.getEdge id
  let neighbor := e.dest_id
  if neighbor = d.ignore then d
  else
    let weight := d.weights.getD curr ⊤ + ((g.getMeta e).weight : Weight)
    if weight = ⊤ then d
    else
      let adj := d.weights.getD neighbor ⊤
      if weight < adj ∨ adj = ⊤ then
        { d with
          weights := d.weights.set neighbor weight
          queue := qpush d.queue neighbor weight }
      else d

/-- Relax every outgoing edge of the popped node, in adjacency order. -/
def relaxAll (g : Graph) (d : Dijkstra) (curr : Nat) : Dijkstra :=
  (g.fwdAdj curr).foldl (relaxStep g curr) d

/-- The loop of `Dijkstra::search`, exactly in source order: pop (an empty
queue ends the loop), break if `num_hops == max_hops`, return if
`weights[dest] <= limit_weight`, relax the popped node, count the hop, and
return if the popped node is `dest`.  Every exit yields `weights[dest]`.
The `fuel` argument only bounds the recursion; the caller passes
`max_hops + 1`, which the hop counter can never outlive. -/
def searchLoop (g : Graph) (dest : Nat) (limit : Weight) (maxHops : Nat) :
    Nat → Nat → Dijkstra → Weight × Dijkstra
  | 0, _, d => (d.weights.getD dest ⊤, d)
  | fuel + 1, numHops, d =>
    match qpopMin d.queue with
    | none => (d.weights.getD dest ⊤, d)
    | some ((curr, _), q') =>
      let d1 : Dijkstra := { d with queue := q' }
      if numHops = maxHops then (d1.weights.getD dest ⊤, d1)
      else if d1.weights.getD dest ⊤ ≤ limit then (d1.weights.getD dest ⊤, d1)
      else
        let d2 := relaxAll g d1 curr
        if curr = dest then (d2.weights.getD dest ⊤, d2)
        else searchLoop g dest limit maxHops fuel (numHops + 1) d2

/-- `Dijkstra::search(graph, dest, limit_weight, max_hops)`; also returns the
final searcher state, which the Rust object keeps for the next call. -/
def Dijkstra.search (d : Dijkstra) (g : Graph) (dest : Nat) (limit : Weight)
    (maxHops : Nat) : Weight × Dijkstra :=
  searchLoop g dest limit maxHops (maxHops + 1) 0 d

/-- The loop of the witness search as the specification orders it
(spec section 4.4 and claim C3): each iteration first returns if
`weight[target] <= limit`, then breaks if `max_hops` pops have occurred,
then breaks if the queue is empty, pops, and returns if the popped node is
the target — only then relaxing. -/
def searchSpecLoop (g : Graph) (dest : Nat) (limit : Weight) (maxHops : Nat) :
    Nat → Nat → Dijkstra → Weight × Dijkstra
  | 0, _, d => (d.weights.getD dest ⊤, d)
  | fuel + 1, pops, d =>
    if d.weights.getD dest ⊤ ≤ limit then (d.weights.getD dest ⊤, d)
    else if pops = maxHops then (d.weights.getD dest ⊤, d)
    else
      match qpopMin d.queue with
      | none => (d.weights.getD dest ⊤, d)
      | some ((curr, _), q') =>
        let d1 : Dijkstra := { d with queue := q' }
        if curr = dest then (d1.weights.getD dest ⊤, d1)
        else searchSpecLoop g dest limit maxHops fuel (pops + 1) (relaxAll g d1 curr)

/-- The witness search with the termination conditions in the order the
specification states them. -/
def searchSpec (d : Dijkstra) (g : Graph) (dest : Nat) (limit : Weight)
    (maxHops : Nat) : Weight × Dijkstra :=
  searchSpecLoop g dest limit maxHops (maxHops + 1) 0 d

/-- A three-node graph with the single edge `0 → 1` of weight 1, used to
separate the source's condition order from the specification's. -/
def exGraphC3 : Graph :=
  { fwd_edge_list := [[0], [], []]
    bwd_edge_list := [[], [0], []]
    nodes := [⟨0, 100, 0, false, false⟩, ⟨1, 101, 0, false, false⟩, ⟨2, 102, 0, false, false⟩]
    edges := [⟨0, 1, 0⟩]
    edge_metadata := [⟨1, none, none, false, false, none, none⟩] }

/-- C3 (counterexample): the source's `Dijkstra::search` does **not**
evaluate its termination conditions in the claimed order.  The code pops
first and checks `weights[dest] <= limit` only after the pop (and after the
`max_hops` check), so a search whose target is already within the limit
still consumes the queue's top entry.  On the graph `0 → 1` with
`init(0, 2)`, a first search for target `0` returns `0` under both orders,
but the code's search empties the queue while the claimed order leaves it
untouched; a second search (the Rust object keeps its state between calls)
for target `1` then returns `+∞` under the code and `1` under the claimed
order. -/
theorem c3_counterexample :
    (((Dijkstra.new 3).init 0 2).search exGraphC3 0 10 10).1 =
      (searchSpec ((Dijkstra.new 3).init 0 2) exGraphC3 0 10 10).1 ∧
    ((((Dijkstra.new 3).init 0 2).search exGraphC3 0 10 10).2.search
        exGraphC3 1 10 10).1 = ⊤ ∧
    (searchSpec (searchSpec ((Dijkstra.new 3).init 0 2) exGraphC3 0 10 10).2
        exGraphC3 1 10 10).1 = ((1 : ℚ) : Weight) ∧
    (⊤ : Weight) ≠ ((1 : ℚ) : Weight) := by
  decide

theorem searchLoop_result (g : Graph) (dest : Nat) (limit : Weight)
    (maxHops : Nat) : ∀ (fuel hops : Nat) (d : Dijkstra),
    (searchLoop g dest limit maxHops fuel hops d).1 =
      (searchLoop g dest limit maxHops fuel hops d).2.weights.getD dest ⊤ := by
  intro fuel
  induction fuel with
  | zero => intro hops d; rfl
  | succ fuel ih =>
    intro hops d
    rw [searchLoop]
    rcases hq : qpopMin d.queue with _ | ⟨⟨curr, p⟩, q'⟩
    · simp [hq]
    · simp only [hq]
      split_ifs with h1 h2 h3
      · rfl
      · rfl
      · rfl
      · exact ih (hops + 1) _

/-- C3 (amended): each iteration of `Dijkstra::search` pops first (an empty
queue exits the loop), then breaks if `max_hops` relaxation rounds have
already completed — discarding the popped node — then returns if
`weight[target] ≤ limit`; the popped-node-equals-target check runs only
after relaxing.  On every exit path the returned value is the
`weight[target]` entry of the final searcher state (possibly `+∞`), and
`max_hops` counts processed pops, not edge relaxations.  Formally: (a) the
result always equals `weight[target]` of the final state; (b) even when
`weight[target] ≤ limit` already holds on entry, the queue's top entry is
consumed before returning; (c) with `max_hops = 0` the search pops once,
relaxes nothing, and returns `weight[target]`. -/
theorem c3_search_order_amended :
    (∀ (g : Graph) (dest : Nat) (limit : Weight) (maxHops fuel hops : Nat)
        (d : Dijkstra),
      (searchLoop g dest limit maxHops fuel hops d).1 =
        (searchLoop g dest limit maxHops fuel hops d).2.weights.getD dest ⊤) ∧
    (∀ (d : Dijkstra) (g : Graph) (dest : Nat) (limit : Weight) (maxHops : Nat)
        (kq : Nat × Weight) (q' : List (Nat × Weight)),
      maxHops ≠ 0 → d.weights.getD dest ⊤ ≤ limit →
      qpopMin d.queue = some (kq, q') →
      d.search g dest limit maxHops = (d.weights.getD dest ⊤, { d with queue := q' })) ∧
    (∀ (d : Dijkstra) (g : Graph) (dest : Nat) (limit : Weight)
        (kq : Nat × Weight) (q' : List (Nat × Weight)),
      qpopMin d.queue = some (kq, q') →
      d.search g dest limit 0 = (d.weights.getD dest ⊤, { d with queue := q' })) := by
  refine ⟨?_, ?_, ?_⟩
  · intro g dest limit maxHops fuel hops d
    exact searchLoop_result g dest limit maxHops fuel hops d
  · intro d g dest limit maxHops kq q' hmax hlim hq
    rw [Dijkstra.search]
    rcases maxHops with _ | m
    · exact absurd rfl hmax
    · rw [searchLoop]
      simp only [hq]
      rw [if_neg (by omega), if_pos hlim]
  · intro d g dest limit kq q' hq
    rw [Dijkstra.search, searchLoop]
    simp only [hq]
    simp

/-- Witness for the amended C3 theorem: its pop-consuming clauses applied to
the concrete searcher `init(0, 2)` on the one-edge graph. -/
theorem c3_search_order_amended_witness :
    ((10 : Nat) ≠ 0 ∧
      ((Dijkstra.new 3).init 0 2).weights.getD 0 ⊤ ≤ (10 : ℚ) ∧
      qpopMin ((Dijkstra.new 3).init 0 2).queue = some ((0, 0), [])) ∧
    ((Dijkstra.new 3).init 0 2).search exGraphC3 0 10 10 =
      (((Dijkstra.new 3).init 0 2).weights.getD 0 ⊤,
        { (Dijkstra.new 3).init 0 2 with queue := [] }) := by
  refine ⟨⟨by decide, by decide, by decide⟩, ?_⟩
  exact c3_search_order_amended.2.1 ((Dijkstra.new 3).init 0 2) exGraphC3 0 10 10
    (0, 0) [] (by decide) (by decide) (by decide)

theorem getD_set {α : Type} (l : List α) (i j : Nat) (a d : α) :
    (l.set i a).getD j d = if j = i ∧ i < l.length then a else l.getD j d := by
  induction l generalizing i j with
  | nil => simp
  | cons x t ih =>
    cases i with
    | zero =>
      cases j with
      | zero => simp
      | succ j => simp
    | succ i =>
      cases j with
      | zero => simp
      | succ j =>
        simp only [List.set_cons_succ, List.getD_cons_succ, List.length_cons]
        rw [ih]
        by_cases h : j = i <;> simp [h]

/-- A walk in the graph from `u` that never enters the node `ign`, together
with its exact total weight: the relation underlying claim C10. -/
inductive ReachAvoid (g : Graph) (ign : Nat) : Nat → Nat → ℚ → Prop where
  | refl (u : Nat) : ReachAvoid g ign u u 0
  | step (u v w : Nat) (c : ℚ) (id : Nat) :
      ReachAvoid g ign u v c → id ∈ g.fwdAdj v → (g.getEdge id).dest_id = w →
      w ≠ ign → ReachAvoid g ign u w (c + (g.getMeta (g.getEdge id)).weight)

/-- The state invariant of the witness searcher after `init(src, ign)` with
`ign ≠ src`: the ignored node's weight is `+∞`, it is never in the queue,
and every finite tentative weight is the exact weight of a walk from `src`
that avoids `ign`. -/
def SearchInv (g : Graph) (src ign : Nat) (d : Dijkstra) : Prop :=
  d.src = src ∧ d.ignore = ign ∧
  d.weights.getD ign ⊤ = ⊤ ∧
  (∀ kp ∈ d.queue, kp.1 ≠ ign) ∧
  (∀ v (c : ℚ), d.weights.getD v ⊤ = (c : Weight) → ReachAvoid g ign src v c)

theorem qpush_keys {a : Type} (q : List (Nat × a)) (k : Nat) (p : a)
    (kp : Nat × a) (h : kp ∈ qpush q k p) : kp.1 = k ∨ kp.1 ∈ q.map Prod.fst := by
  rw [qpush] at h
  split_ifs at h with hc
  · rw [List.mem_map] at h
    obtain ⟨e, he, heq⟩ := h
    by_cases hek : e.1 = k
    · rw [if_pos hek] at heq
      left; rw [← heq]
    · rw [if_neg hek] at heq
      right
      exact List.mem_map.mpr ⟨e, he, by rw [← heq]⟩
  · rw [List.mem_append] at h
    rcases h with h | h
    · right; exact List.mem_map.mpr ⟨kp, h, rfl⟩
    · left
      simp only [List.mem_singleton] at h
      rw [h]

theorem qeraseKey_subset {a : Type} (q : List (Nat × a)) (k : Nat)
    (kp : Nat × a) (h : kp ∈ qeraseKey q k) : kp ∈ q := by
  induction q with
  | nil => simp [qeraseKey] at h
  | cons e rest ih =>
    rw [qeraseKey] at h
    split_ifs at h with hc
    · exact List.mem_cons_of_mem _ h
    · rcases List.mem_cons.mp h with h | h
      · rw [h]; exact List.mem_cons_self _ _
      · exact List.mem_cons_of_mem _ (ih h)

theorem relaxStep_inv (g : Graph) (src ign curr : Nat) (d : Dijkstra) (id : Nat)
    (hid : id ∈ g.fwdAdj curr) (hI : SearchInv g src ign d) :
    SearchInv g src ign (relaxStep g curr d id) := by
  obtain ⟨hsrc, hign, htop, hqueue, hreach⟩ := hI
  simp only [relaxStep]
  split_ifs with h1 h2 h3
  · exact ⟨hsrc, hign, htop, hqueue, hreach⟩
  · exact ⟨hsrc, hign, htop, hqueue, hreach⟩
  · refine ⟨hsrc, hign, ?_, ?_, ?_⟩
    · rw [getD_set]
      have : ¬(ign = (g.getEdge id).dest_id ∧ (g.getEdge id).dest_id < d.weights.length) := by
        intro ⟨he, _⟩
        exact h1 (by rw [← he, hign])
      rw [if_neg this]
      exact htop
    · intro kp hkp
      rcases qpush_keys _ _ _ _ hkp with hk | hk
      · rw [hk]
        intro hcon
        exact h1 (by rw [hcon, hign])
      · rw [List.mem_map] at hk
        obtain ⟨e, he, heq⟩ := hk
        have := hqueue e he
        exact heq ▸ this
    · intro v c hv
      rw [getD_set] at hv
      split_ifs at hv with hc
      · obtain ⟨hveq, _⟩ := hc
        have hfin : d.weights.getD curr ⊤ ≠ ⊤ := by
          intro hcon
          rw [hcon] at h2
          exact h2 (by simp)
        obtain ⟨cc, hcc⟩ := WithTop.ne_top_iff_exists.mp hfin
        have hsum : d.weights.getD curr ⊤ + ((g.getMeta (g.getEdge id)).weight : Weight) =
            ((cc + (g.getMeta (g.getEdge id)).weight : ℚ) : Weight) := by
          rw [← hcc, ← WithTop.coe_add]
        rw [hsum] at hv
        have hcv : cc + (g.getMeta (g.getEdge id)).weight = c := WithTop.coe_eq_coe.mp hv
        rw [← hcv, hveq]
        exact ReachAvoid.step src curr _ cc id (hreach curr cc hcc.symm) hid rfl
          (fun hcon => h1 (by rw [hcon, hign]))
      · exact hreach v c hv
  · exact ⟨hsrc, hign, htop, hqueue, hreach⟩

theorem relaxAll_inv (g : Graph) (src ign curr : Nat) (d : Dijkstra)
    (hI : SearchInv g src ign d) : SearchInv g src ign (relaxAll g d curr) := by
  rw [relaxAll]
  have : ∀ (l : List Nat), (∀ x ∈ l, x ∈ g.fwdAdj curr) → ∀ d, SearchInv g src ign d →
      SearchInv g src ign (l.foldl (relaxStep g curr) d) := by
    intro l
    induction l with
    | nil => intro _ d hd; exact hd
    | cons x t ih =>
      intro hsub d hd
      rw [List.foldl_cons]
      exact ih (fun y hy => hsub y (List.mem_cons_of_mem _ hy)) _
        (relaxStep_inv g src ign curr d x (hsub x (List.mem_cons_self _ _)) hd)
  exact this _ (fun x hx => hx) d hI

theorem searchLoop_inv (g : Graph) (src ign dest : Nat) (limit : Weight)
    (maxHops : Nat) :
    ∀ (fuel hops : Nat) (d : Dijkstra), SearchInv g src ign d →
      SearchInv g src ign (searchLoop g dest limit maxHops fuel hops d).2 := by
  intro fuel
  induction fuel with
  | zero => intro hops d hd; exact hd
  | succ fuel ih =>
    intro hops d hd
    obtain ⟨hsrc, hign, htop, hqueue, hreach⟩ := hd
    rw [searchLoop]
    rcases hq : qpopMin d.queue with _ | ⟨⟨curr, p⟩, q'⟩
    · exact ⟨hsrc, hign, htop, hqueue, hreach⟩
    · have hq'eq : q' = qeraseKey d.queue curr := by
        rw [qpopMin] at hq
        obtain ⟨b, hb, hfb⟩ := Option.map_eq_some'.mp hq
        obtain ⟨h1, h2⟩ := Prod.ext_iff.mp hfb
        simp only at h1 h2
        rw [← h2, h1]
      have hq' : SearchInv g src ign { d with queue := q' } := by
        refine ⟨hsrc, hign, htop, ?_, hreach⟩
        intro kp hkp
        have hkp2 : kp ∈ q' := hkp
        rw [hq'eq] at hkp2
        exact hqueue kp (qeraseKey_subset _ _ _ hkp2)
      simp only [hq]
      split_ifs with h1 h2 h3
      · exact hq'
      · exact hq'
      · exact relaxAll_inv g src ign curr _ hq'
      · exact ih (hops + 1) _ (relaxAll_inv g src ign curr _ hq')

theorem map_const_top_getD (l : List Weight) (i : Nat) :
    (l.map (fun _ => (⊤ : Weight))).getD i ⊤ = ⊤ := by
  induction l generalizing i with
  | nil => simp
  | cons x t ih =>
    cases i with
    | zero => simp
    | succ i => rw [List.map_cons, List.getD_cons_succ]; exact ih i

/-- C10: after `Dijkstra::init(src, ignore)` with `ignore ≠ src`, the
searcher state satisfies `SearchInv`, and `Dijkstra::search` preserves it
over any number of calls: an edge into the ignored node is never relaxed,
the ignored node is never in the queue, its tentative weight stays `+∞`
throughout, and whenever the returned value is finite it is the exact
weight of a walk from `src` to the target that avoids the ignored node
entirely (otherwise the returned value is `+∞`). -/
theorem c10_search_avoids_ignored (g : Graph) (n src ign : Nat)
    (hne : ign ≠ src) :
    SearchInv g src ign ((Dijkstra.new n).init src ign) ∧
    ∀ (d : Dijkstra) (dest : Nat) (limit : Weight) (maxHops : Nat),
      SearchInv g src ign d →
      SearchInv g src ign (d.search g dest limit maxHops).2 ∧
      (d.search g dest limit maxHops).2.weights.getD ign ⊤ = ⊤ ∧
      (∀ kp ∈ (d.search g dest limit maxHops).2.queue, kp.1 ≠ ign) ∧
      ((d.search g dest limit maxHops).1 = ⊤ ∨
        ∃ c : ℚ, (d.search g dest limit maxHops).1 = (c : Weight) ∧
          ReachAvoid g ign src dest c) := by
  constructor
  · refine ⟨rfl, rfl, ?_, ?_, ?_⟩
    · show ((((Dijkstra.new n).weights.map (fun _ => (⊤ : Weight))).set src 0)).getD ign ⊤ = ⊤
      rw [getD_set]
      rw [if_neg (fun hcon => hne hcon.1)]
      exact map_const_top_getD _ ign
    · intro kp hkp
      have : kp ∈ qpush [] src 0 := hkp
      rw [qpush] at this
      simp only [List.any_nil, Bool.false_eq_true, if_false, List.nil_append,
        List.mem_singleton] at this
      rw [this]
      exact fun hcon => hne hcon.symm
    · intro v c hv
      have hv2 : ((((Dijkstra.new n).weights.map (fun _ => (⊤ : Weight))).set src 0)).getD v ⊤ =
          (c : Weight) := hv
      rw [getD_set] at hv2
      split_ifs at hv2 with hc
      · have hc0 : (0 : Weight) = ((0 : ℚ) : Weight) := rfl
        rw [hc0] at hv2
        have : (0 : ℚ) = c := WithTop.coe_eq_coe.mp hv2
        rw [← this, hc.1]
        exact ReachAvoid.refl src
      · rw [map_const_top_getD] at hv2
        exact absurd hv2.symm (WithTop.coe_ne_top)
  · intro d dest limit maxHops hI
    have hI2 := searchLoop_inv g src ign dest limit maxHops (maxHops + 1) 0 d hI
    refine ⟨hI2, hI2.2.2.1, hI2.2.2.2.1, ?_⟩
    rw [Dijkstra.search, searchLoop_result]
    rcases hW : (searchLoop g dest limit maxHops (maxHops + 1) 0 d).2.weights.getD dest ⊤
      with _ | c
    · exact Or.inl rfl
    · exact Or.inr ⟨c, rfl, hI2.2.2.2.2 dest c hW⟩

/-- Witness for C10: the searcher `init(0, 2)` on the one-edge graph, with
a search for target `1`. -/
theorem c10_search_avoids_ignored_witness :
    ((2 : Nat) ≠ 0) ∧
    (SearchInv exGraphC3 0 2 ((Dijkstra.new 3).init 0 2) ∧
      ∀ (d : Dijkstra) (dest : Nat) (limit : Weight) (maxHops : Nat),
        SearchInv exGraphC3 0 2 d →
        SearchInv exGraphC3 0 2 (d.search exGraphC3 dest limit maxHops).2 ∧
        (d.search exGraphC3 dest limit maxHops).2.weights.getD 2 ⊤ = ⊤ ∧
        (∀ kp ∈ (d.search exGraphC3 dest limit maxHops).2.queue, kp.1 ≠ 2) ∧
        ((d.search exGraphC3 dest limit maxHops).1 = ⊤ ∨
          ∃ c : ℚ, (d.search exGraphC3 dest limit maxHops).1 = (c : Weight) ∧
            ReachAvoid exGraphC3 2 0 dest c)) :=
  ⟨by decide, c10_search_avoids_ignored exGraphC3 3 0 2 (by decide)⟩

/-! ## Bidirectional query (`src/src/engine/query/ch_query.rs`, `bi_dir_dijkstra`) -/

/-- The local state of `bi_dir_dijkstra`: both tentative-distance arrays,
both predecessor arrays, both node-keyed min-queues, and the meeting node. -/
structure BDState where
  forward_dist : List Weight
  backward_dist : List Weight
  forward_prev : List (Option Nat)
  backward_prev : List (Option Nat)
  forward_queue : List (Nat × Weight)
  backward_queue : List (Nat × Weight)
  meeting_node : Option Nat
deriving Repr, DecidableEq

/-- The forward neighbour loop of `bi_dir_dijkstra`: upward-only pruning
(`rank(v) < rank(u)` skips), standard relaxation, then the meeting check
`backward_dist[v] != INFINITY`, which `break`s out of the loop. -/
def bdFwdRelax (g : Graph) (u : Nat) : List Nat → BDState → BDState
  | [], st => st
  | id :: rest, st =>
    let e := g.getEdge id
    let v := e.dest_id
    if (g.getNode v).rank < (g.getNode u).rank then bdFwdRelax g u rest st
    else
      let alt := st.forward_dist.getD u ⊤ + ((g.getMeta e).weight : Weight)
      let st1 := if alt < st.forward_dist.getD v ⊤ then
          { st with
            forward_dist := st.forward_dist.set v alt
            forward_prev := st.forward_prev.set v (some u)
            forward_queue := qpush st.forward_queue v alt }
        else st
      if st1.backward_dist.getD v ⊤ ≠ ⊤ then { st1 with meeting_node := some v }
      else bdFwdRelax g u rest st1

/-- The backward neighbour loop of `bi_dir_dijkstra` (over `bwd_neighbors`,
with `v = edge.src_id`), mirror of `bdFwdRelax`. -/
def bdBwdRelax (g : Graph) (u : Nat) : List Nat → BDState → BDState
  | [], st => st
  | id :: rest, st =>
    let e := g.getEdge id
    let v := e.src_id
    if (g.getNode v).rank < (g.getNode u).rank then bdBwdRelax g u rest st
    else
      let alt := st.backward_dist.getD u ⊤ + ((g.getMeta e).weight : Weight)
      let st1 := if alt < st.backward_dist.getD v ⊤ then
          { st with
            backward_dist := st.backward_dist.set v alt
            backward_prev := st.backward_prev.set v (some u)
            backward_queue := qpush st.backward_queue v alt }
        else st
      if st1.forward_dist.getD v ⊤ ≠ ⊤ then { st1 with meeting_node := some v }
      else bdBwdRelax g u rest st1

/-- The main loop of `bi_dir_dijkstra`: while both queues are nonempty, one
forward pop-and-relax, one backward pop-and-relax, then break if a meeting
node was recorded.  `fuel` only bounds the recursion (the Rust loop is
unbounded); all theorems below hold for every fuel. -/
def bdLoop (g : Graph) : Nat → BDState → BDState
  | 0, st => st
  | fuel + 1, st =>
    if st.forward_queue.isEmpty ∨ st.backward_queue.isEmpty then st
    else
      let st1 := match qpopMin st.forward_queue with
        | none => st
        | some ((u, _), q') => bdFwdRelax g u (g.fwdAdj u) { st with forward_queue := q' }
      let st2 := match qpopMin st1.backward_queue with
        | none => st1
        | some ((u, _), q') => bdBwdRelax g u (g.bwdAdj u) { st1 with backward_queue := q' }
      if st2.meeting_node.isSome then st2
      else bdLoop g fuel st2

/-- The initial state of `bi_dir_dijkstra(overlay, src, dest)`. -/
def bdInit (g : Graph) (src dest : Nat) : BDState :=
  let n := g.nodes.length
  { forward_dist := (List.replicate n (⊤ : Weight)).set src 0
    backward_dist := (List.replicate n (⊤ : Weight)).set dest 0
    forward_prev := List.replicate n none
    backward_prev := List.replicate n none
    forward_queue := qpush [] src 0
    backward_queue := qpush [] dest 0
    meeting_node := none }

/-- Run the query loop from the initial state (exposing the final state). -/
def bdRun (g : Graph) (src dest fuel : Nat) : BDState :=
  bdLoop g fuel (bdInit g src dest)

/-- The predecessor-chain walk of the path reconstruction
(`while let Some(prev) = prev[current] { path.push(prev); current = prev }`);
`fuel` bounds the walk (the Rust loop is unbounded but the chains are
acyclic in every run considered). -/
def prevWalk (prev : List (Option Nat)) : Nat → Nat → List Nat
  | 0, _ => []
  | fuel + 1, current =>
    match prev.getD current none with
    | none => []
    | some p => p :: prevWalk prev fuel p

/-- `bi_dir_dijkstra(overlay, src, dest)`: `None` when no meeting node was
recorded, otherwise the reconstructed node list — the reversed forward
predecessor chain of the meeting node followed by its backward predecessor
chain. -/
def bi_dir_dijkstra (overlay : Graph) (src dest : Nat) (fuel : Nat) :
    Option (List Nat) :=
  let st := bdRun overlay src dest fuel
  st.meeting_node.map (fun node =>
    (prevWalk st.forward_prev overlay.nodes.length node).reverse ++
      prevWalk st.backward_prev overlay.nodes.length node)

/-- A three-node graph for C8: node 0 is isolated, and node 1 has the single
incoming edge `2 → 1` of weight 1.  All ranks are 0. -/
def exGraphC8 : Graph :=
  { fwd_edge_list := [[], [], [0]]
    bwd_edge_list := [[], [0], []]
    nodes := [⟨0, 100, 0, false, false⟩, ⟨1, 101, 0, false, false⟩, ⟨2, 102, 0, false, false⟩]
    edges := [⟨2, 1, 0⟩]
    edge_metadata := [⟨1, none, none, false, false, none, none⟩] }

/-- C8 (counterexample): querying the unreachable target `1` from the
isolated source `0` on `exGraphC8` returns `None` — but the loop exits with
the backward queue still holding node 2, because the `while` condition
stops as soon as **either** queue is exhausted; the claim's "both queues
exhausted" does not hold. -/
theorem c8_counterexample :
    bi_dir_dijkstra exGraphC8 0 1 10 = none ∧
    (bdRun exGraphC8 0 1 10).backward_queue = [(2, ((1 : ℚ) : Weight))] ∧
    (bdRun exGraphC8 0 1 10).backward_queue ≠ [] := by
  decide

/-- Forward reachability along `fwd_edge_list` edges, exactly as the query's
forward relaxation traverses them. -/
inductive ReachF (g : Graph) : Nat → Nat → Prop where
  | refl (u : Nat) : ReachF g u u
  | step (u v w : Nat) (id : Nat) :
      ReachF g u v → id ∈ g.fwdAdj v → (g.getEdge id).dest_id = w → ReachF g u w

/-- Backward reachability: `ReachB g dest v` holds when the backward search
can reach `v` from `dest` along `bwd_edge_list` edges (so there is a chain
of edges leading from `v` into `dest`). -/
inductive ReachB (g : Graph) (dest : Nat) : Nat → Prop where
  | refl : ReachB g dest dest
  | step (u v : Nat) (id : Nat) :
      ReachB g dest u → id ∈ g.bwdAdj u → (g.getEdge id).src_id = v → ReachB g dest v

/-- All edge endpoints name existing nodes. -/
def edgesInRange (g : Graph) : Prop :=
  ∀ e ∈ g.edges, e.src_id < g.nodes.length ∧ e.dest_id < g.nodes.length

instance (g : Graph) : Decidable (edgesInRange g) := by
  unfold edgesInRange
  infer_instance

theorem getEdge_inRange (g : Graph) (hwf : edgesInRange g)
    (hn : 0 < g.nodes.length) (i : Nat) :
    (g.getEdge i).src_id < g.nodes.length ∧ (g.getEdge i).dest_id < g.nodes.length := by
  rw [Graph.getEdge, List.getD_eq_getElem?_getD]
  rcases h : g.edges[i]? with _ | e
  · exact ⟨hn, hn⟩
  · exact hwf e (List.getElem?_mem h)

theorem qleast_mem {a : Type} [LinearOrder a] (q : List (Nat × a)) (b : Nat × a)
    (h : qleast q = some b) : b ∈ q := by
  induction q generalizing b with
  | nil => simp [qleast] at h
  | cons e rest ih =>
    rw [qleast] at h
    rcases hl : qleast rest with _ | c
    · rw [hl] at h
      simp only [Option.some.injEq] at h
      rw [← h]
      exact List.mem_cons_self _ _
    · rw [hl] at h
      simp only [Option.some.injEq] at h
      rw [← h]
      split_ifs
      · exact List.mem_cons_self _ _
      · exact List.mem_cons_of_mem _ (ih c hl)

theorem qpopMin_mem {a : Type} [LinearOrder a] (q q' : List (Nat × a))
    (kp : Nat × a) (h : qpopMin q = some (kp, q')) : kp ∈ q := by
  rw [qpopMin] at h
  obtain ⟨b, hb, hfb⟩ := Option.map_eq_some'.mp h
  obtain ⟨h1, _⟩ := Prod.ext_iff.mp hfb
  simp only at h1
  rw [← h1]
  exact qleast_mem q b hb

/-- The invariant of an unreachable query: every finite forward distance is
forward-reachable from the source, every finite backward distance reaches
the target, queue entries have finite distances, the distance arrays keep
their length, and no meeting node has been recorded. -/
def BDInv (g : Graph) (src dest : Nat) (st : BDState) : Prop :=
  st.forward_dist.length = g.nodes.length ∧
  st.backward_dist.length = g.nodes.length ∧
  (∀ v, st.forward_dist.getD v ⊤ ≠ ⊤ → ReachF g src v) ∧
  (∀ kp ∈ st.forward_queue, st.forward_dist.getD kp.1 ⊤ ≠ ⊤) ∧
  (∀ v, st.backward_dist.getD v ⊤ ≠ ⊤ → ReachB g dest v) ∧
  (∀ kp ∈ st.backward_queue, st.backward_dist.getD kp.1 ⊤ ≠ ⊤) ∧
  st.meeting_node = none

theorem bdFwdRelax_inv (g : Graph) (src dest u : Nat)
    (hwf : edgesInRange g) (hn : 0 < g.nodes.length)
    (hnm : ¬ ∃ v, ReachF g src v ∧ ReachB g dest v)
    (hu : ReachF g src u) :
    ∀ (ids : List Nat) (st : BDState), (∀ id ∈ ids, id ∈ g.fwdAdj u) →
      BDInv g src dest st → BDInv g src dest (bdFwdRelax g u ids st) := by
  intro ids
  induction ids with
  | nil => intro st _ hI; exact hI
  | cons id rest ih =>
    intro st hsub hI
    obtain ⟨hlf, hlb, hRf, hQf, hRb, hQb, hm⟩ := hI
    have hidmem : id ∈ g.fwdAdj u := hsub id (List.mem_cons_self _ _)
    have hrest : ∀ x ∈ rest, x ∈ g.fwdAdj u :=
      fun x hx => hsub x (List.mem_cons_of_mem _ hx)
    have hreachv : ReachF g src (g.getEdge id).dest_id :=
      ReachF.step src u _ id hu hidmem rfl
    simp only [bdFwdRelax]
    split_ifs with h1 h2 h3 h4
    · exact ih st hrest ⟨hlf, hlb, hRf, hQf, hRb, hQb, hm⟩
    · exact absurd ⟨(g.getEdge id).dest_id, hreachv, hRb _ h3⟩ hnm
    · refine ih _ hrest ?_
      have hvlt : (g.getEdge id).dest_id < st.forward_dist.length := by
        rw [hlf]; exact (getEdge_inRange g hwf hn id).2
      have halt : st.forward_dist.getD u ⊤ + ((g.getMeta (g.getEdge id)).weight : Weight) ≠ ⊤ :=
        ne_top_of_lt h2
      refine ⟨by simpa using hlf, hlb, ?_, ?_, hRb, hQb, hm⟩
      · intro v hv
        rw [show ({ st with
              forward_dist := st.forward_dist.set (g.getEdge id).dest_id
                (st.forward_dist.getD u ⊤ + ((g.getMeta (g.getEdge id)).weight : Weight))
              forward_prev := st.forward_prev.set (g.getEdge id).dest_id (some u)
              forward_queue := qpush st.forward_queue (g.getEdge id).dest_id
                (st.forward_dist.getD u ⊤ + ((g.getMeta (g.getEdge id)).weight : Weight)) }
            : BDState).forward_dist = st.forward_dist.set (g.getEdge id).dest_id
              (st.forward_dist.getD u ⊤ + ((g.getMeta (g.getEdge id)).weight : Weight))
          from rfl, getD_set] at hv
        split_ifs at hv with hc
        · rw [hc.1]; exact hreachv
        · exact hRf v hv
      · intro kp hkp
        rw [getD_set]
        rcases qpush_keys _ _ _ _ hkp with hk | hk
        · rw [if_pos ⟨hk, hvlt⟩]
          exact halt
        · rw [List.mem_map] at hk
          obtain ⟨e, he, heq⟩ := hk
          split_ifs with hc
          · exact halt
          · rw [← heq]
            exact hQf e he
    · exact absurd ⟨(g.getEdge id).dest_id, hreachv, hRb _ h4⟩ hnm
    · exact ih st hrest ⟨hlf, hlb, hRf, hQf, hRb, hQb, hm⟩

theorem bdBwdRelax_inv (g : Graph) (src dest u : Nat)
    (hwf : edgesInRange g) (hn : 0 < g.nodes.length)
    (hnm : ¬ ∃ v, ReachF g src v ∧ ReachB g dest v)
    (hu : ReachB g dest u) :
    ∀ (ids : List Nat) (st : BDState), (∀ id ∈ ids, id ∈ g.bwdAdj u) →
      BDInv g src dest st → BDInv g src dest (bdBwdRelax g u ids st) := by
  intro ids
  induction ids with
  | nil => intro st _ hI; exact hI
  | cons id rest ih =>
    intro st hsub hI
    obtain ⟨hlf, hlb, hRf, hQf, hRb, hQb, hm⟩ := hI
    have hidmem : id ∈ g.bwdAdj u := hsub id (List.mem_cons_self _ _)
    have hrest : ∀ x ∈ rest, x ∈ g.bwdAdj u :=
      fun x hx => hsub x (List.mem_cons_of_mem _ hx)
    have hreachv : ReachB g dest (g.getEdge id).src_id :=
      ReachB.step u _ id hu hidmem rfl
    simp only [bdBwdRelax]
    split_ifs with h1 h2 h3 h4
    · exact ih st hrest ⟨hlf, hlb, hRf, hQf, hRb, hQb, hm⟩
    · exact absurd ⟨(g.getEdge id).src_id, hRf _ h3, hreachv⟩ hnm
    · refine ih _ hrest ?_
      have hvlt : (g.getEdge id).src_id < st.backward_dist.length := by
        rw [hlb]; exact (getEdge_inRange g hwf hn id).1
      have halt : st.backward_dist.getD u ⊤ + ((g.getMeta (g.getEdge id)).weight : Weight) ≠ ⊤ :=
        ne_top_of_lt h2
      refine ⟨hlf, by simpa using hlb, hRf, hQf, ?_, ?_, hm⟩
      · intro v hv
        rw [show ({ st with
              backward_dist := st.backward_dist.set (g.getEdge id).src_id
                (st.backward_dist.getD u ⊤ + ((g.getMeta (g.getEdge id)).weight : Weight))
              backward_prev := st.backward_prev.set (g.getEdge id).src_id (some u)
              backward_queue := qpush st.backward_queue (g.getEdge id).src_id
                (st.backward_dist.getD u ⊤ + ((g.getMeta (g.getEdge id)).weight : Weight)) }
            : BDState).backward_dist = st.backward_dist.set (g.getEdge id).src_id
              (st.backward_dist.getD u ⊤ + ((g.getMeta (g.getEdge id)).weight : Weight))
          from rfl, getD_set] at hv
        split_ifs at hv with hc
        · rw [hc.1]; exact hreachv
        · exact hRb v hv
      · intro kp hkp
        rw [getD_set]
        rcases qpush_keys _ _ _ _ hkp with hk | hk
        · rw [if_pos ⟨hk, hvlt⟩]
          exact halt
        · rw [List.mem_map] at hk
          obtain ⟨e, he, heq⟩ := hk
          split_ifs with hc
          · exact halt
          · rw [← heq]
            exact hQb e he
    · exact absurd ⟨(g.getEdge id).src_id, hRf _ h4, hreachv⟩ hnm
    · exact ih st hrest ⟨hlf, hlb, hRf, hQf, hRb, hQb, hm⟩

theorem bdLoop_inv (g : Graph) (src dest : Nat)
    (hwf : edgesInRange g) (hn : 0 < g.nodes.length)
    (hnm : ¬ ∃ v, ReachF g src v ∧ ReachB g dest v) :
    ∀ (fuel : Nat) (st : BDState), BDInv g src dest st →
      BDInv g src dest (bdLoop g fuel st) := by
  have hI1 : ∀ stx, BDInv g src dest stx → BDInv g src dest
      (match qpopMin stx.forward_queue with
        | none => stx
        | some ((u, _), q') => bdFwdRelax g u (g.fwdAdj u) { stx with forward_queue := q' }) := by
    intro stx hI
    rcases hq : qpopMin stx.forward_queue with _ | ⟨⟨u, p⟩, q'⟩
    · exact hI
    · obtain ⟨hlf, hlb, hRf, hQf, hRb, hQb, hm⟩ := hI
      have hmem : (u, p) ∈ stx.forward_queue := qpopMin_mem _ _ _ hq
      have hufin : stx.forward_dist.getD u ⊤ ≠ ⊤ := hQf (u, p) hmem
      have hQf' : ∀ kp ∈ q', stx.forward_dist.getD kp.1 ⊤ ≠ ⊤ := by
        intro kp hkp
        refine hQf kp ?_
        rw [qpopMin] at hq
        obtain ⟨b, hb, hfb⟩ := Option.map_eq_some'.mp hq
        obtain ⟨_, h2⟩ := Prod.ext_iff.mp hfb
        simp only at h2
        rw [← h2] at hkp
        exact qeraseKey_subset _ _ _ hkp
      exact bdFwdRelax_inv g src dest u hwf hn hnm (hRf u hufin) (g.fwdAdj u)
        { stx with forward_queue := q' } (fun x hx => hx)
        ⟨hlf, hlb, hRf, hQf', hRb, hQb, hm⟩
  have hI2 : ∀ stx, BDInv g src dest stx → BDInv g src dest
      (match qpopMin stx.backward_queue with
        | none => stx
        | some ((u, _), q') => bdBwdRelax g u (g.bwdAdj u) { stx with backward_queue := q' }) := by
    intro stx hI
    rcases hq : qpopMin stx.backward_queue with _ | ⟨⟨u, p⟩, q'⟩
    · exact hI
    · obtain ⟨hlf, hlb, hRf, hQf, hRb, hQb, hm⟩ := hI
      have hmem : (u, p) ∈ stx.backward_queue := qpopMin_mem _ _ _ hq
      have hufin : stx.backward_dist.getD u ⊤ ≠ ⊤ := hQb (u, p) hmem
      have hQb' : ∀ kp ∈ q', stx.backward_dist.getD kp.1 ⊤ ≠ ⊤ := by
        intro kp hkp
        refine hQb kp ?_
        rw [qpopMin] at hq
        obtain ⟨b, hb, hfb⟩ := Option.map_eq_some'.mp hq
        obtain ⟨_, h2⟩ := Prod.ext_iff.mp hfb
        simp only at h2
        rw [← h2] at hkp
        exact qeraseKey_subset _ _ _ hkp
      exact bdBwdRelax_inv g src dest u hwf hn hnm (hRb u hufin) (g.bwdAdj u)
        { stx with backward_queue := q' } (fun x hx => hx)
        ⟨hlf, hlb, hRf, hQf, hRb, hQb', hm⟩
  intro fuel
  induction fuel with
  | zero => intro st hI; exact hI
  | succ fuel ih =>
    intro st hI
    simp only [bdLoop]
    split_ifs with h1 h2
    · exact hI
    · exact hI2 _ (hI1 _ hI)
    · exact ih _ (hI2 _ (hI1 _ hI))

theorem replicate_top_getD (n v : Nat) : (List.replicate n (⊤ : Weight)).getD v ⊤ = ⊤ := by
  induction n generalizing v with
  | zero => simp
  | succ n ih =>
    cases v with
    | zero => simp [List.replicate]
    | succ v =>
      rw [List.replicate, List.getD_cons_succ]
      exact ih v

/-- C8 (amended): when there is no candidate meeting node at all — no node
that is both forward-reachable from the source and backward-reachable into
the target, which in particular is the case whenever the target is
unreachable from the source in a coherent graph — the bidirectional query
records no meeting node and returns `None` (never an error), for every
iteration bound; and it terminates as soon as **either** queue is
exhausted, not necessarily with both queues empty. -/
theorem c8_no_path_returns_none (g : Graph) (src dest fuel : Nat)
    (hwf : edgesInRange g)
    (hsrc : src < g.nodes.length) (hdest : dest < g.nodes.length)
    (hnm : ¬ ∃ v, ReachF g src v ∧ ReachB g dest v) :
    bi_dir_dijkstra g src dest fuel = none := by
  have hn : 0 < g.nodes.length := Nat.lt_of_le_of_lt (Nat.zero_le _) hsrc
  have hI0 : BDInv g src dest (bdInit g src dest) := by
    refine ⟨by simp [bdInit], by simp [bdInit], ?_, ?_, ?_, ?_, rfl⟩
    · intro v hv
      have hv2 : ((List.replicate g.nodes.length (⊤ : Weight)).set src 0).getD v ⊤ ≠ ⊤ := hv
      rw [getD_set] at hv2
      split_ifs at hv2 with hc
      · rw [hc.1]; exact ReachF.refl src
      · exact absurd (replicate_top_getD _ v) hv2
    · intro kp hkp
      have hkp2 : kp ∈ qpush [] src 0 := hkp
      rw [qpush] at hkp2
      simp only [List.any_nil, Bool.false_eq_true, if_false, List.nil_append,
        List.mem_singleton] at hkp2
      show (bdInit g src dest).forward_dist.getD kp.1 ⊤ ≠ ⊤
      rw [hkp2]
      have : ((List.replicate g.nodes.length (⊤ : Weight)).set src 0).getD src ⊤ = 0 := by
        rw [getD_set, if_pos ⟨rfl, by simpa using hsrc⟩]
      show ((List.replicate g.nodes.length (⊤ : Weight)).set src 0).getD src ⊤ ≠ ⊤
      rw [this]
      decide
    · intro v hv
      have hv2 : ((List.replicate g.nodes.length (⊤ : Weight)).set dest 0).getD v ⊤ ≠ ⊤ := hv
      rw [getD_set] at hv2
      split_ifs at hv2 with hc
      · rw [hc.1]; exact ReachB.refl
      · exact absurd (replicate_top_getD _ v) hv2
    · intro kp hkp
      have hkp2 : kp ∈ qpush [] dest 0 := hkp
      rw [qpush] at hkp2
      simp only [List.any_nil, Bool.false_eq_true, if_false, List.nil_append,
        List.mem_singleton] at hkp2
      show (bdInit g src dest).backward_dist.getD kp.1 ⊤ ≠ ⊤
      rw [hkp2]
      have : ((List.replicate g.nodes.length (⊤ : Weight)).set dest 0).getD dest ⊤ = 0 := by
        rw [getD_set, if_pos ⟨rfl, by simpa using hdest⟩]
      show ((List.replicate g.nodes.length (⊤ : Weight)).set dest 0).getD dest ⊤ ≠ ⊤
      rw [this]
      decide
  have hfin := bdLoop_inv g src dest hwf hn hnm fuel (bdInit g src dest) hI0
  rw [bi_dir_dijkstra]
  show ((bdRun g src dest fuel).meeting_node.map _) = none
  rw [show (bdRun g src dest fuel).meeting_node = none from hfin.2.2.2.2.2.2]
  rfl

/-- Witness for the amended C8 theorem: on `exGraphC8`, node 1 is not
reachable from the isolated node 0, and the query returns `None`. -/
theorem c8_no_path_returns_none_witness :
    (edgesInRange exGraphC8 ∧ (0 : Nat) < exGraphC8.nodes.length ∧
      (1 : Nat) < exGraphC8.nodes.length ∧
      ¬ ∃ v, ReachF exGraphC8 0 v ∧ ReachB exGraphC8 1 v) ∧
    bi_dir_dijkstra exGraphC8 0 1 10 = none := by
  have hFgen : ∀ a v, ReachF exGraphC8 a v → a = 0 → v = 0 := by
    intro a v hv
    induction hv with
    | refl => intro h; exact h
    | step v w id hr hmem hd ih =>
      intro h
      rw [ih h] at hmem
      simp [exGraphC8, Graph.fwdAdj] at hmem
  have hF : ∀ v, ReachF exGraphC8 0 v → v = 0 := fun v hv => hFgen 0 v hv rfl
  have hB : ∀ v, ReachB exGraphC8 1 v → v = 1 ∨ v = 2 := by
    intro v hv
    induction hv with
    | refl => left; rfl
    | step u v2 id hr hmem hsrc ih =>
      rcases ih with h | h
      · rw [h] at hmem
        have hid : id = 0 := by simpa [exGraphC8, Graph.bwdAdj] using hmem
        rw [hid] at hsrc
        right
        rw [← hsrc]
        rfl
      · rw [h] at hmem
        simp [exGraphC8, Graph.bwdAdj] at hmem
  have hnm : ¬ ∃ v, ReachF exGraphC8 0 v ∧ ReachB exGraphC8 1 v := by
    rintro ⟨v, hFv, hBv⟩
    have h0 := hF v hFv
    rcases hB v hBv with h | h <;> omega
  exact ⟨⟨by decide, by decide, by decide, hnm⟩,
    c8_no_path_returns_none exGraphC8 0 1 10 (by decide) (by decide) (by decide) hnm⟩

/-! ## Contraction (`routing-engine/src/engine/preprocess/ch_preprocess.rs`)

The witness searcher used by the contractor lives in
`routing-engine/src/engine/preprocess/witness_search.rs`, which is absent
from the source snapshot (only this caller and the spec describe it); per
the specification it is the searcher of section 4.4, i.e. exactly the
`searchSpec`/`Dijkstra.init` model above.  The priority queue is the
`priority_queue` crate modelled at the top of this file; the initial pushes
happen in dense-id order, so the earliest-inserted tie rule coincides with
the spec's dense-id-ascending tie-break. -/

/-- `Node::raise_rank`: `if rank >= self.rank { self.rank = rank }`. -/
def Graph.raiseRank (g : Graph) (i : Nat) (r : Int) : Graph :=
  { g with nodes :=
      (modifyAt g.nodes i
        (fun nd => if r ≥ nd.rank then { nd with rank := r } else nd)) }

/-- `add_shortcut`: push the shortcut metadata (weight `combined`,
`prev_edge`/`next_edge` recorded) and add the shortcut edge. -/
def add_shortcut (g : Graph) (w v : Nat) (combined : ℚ)
    (prev_edge_idx next_edge_idx : Nat) : Graph :=
  let shortcut_metadata : EdgeMetadata :=
    ⟨combined, none, none, true, false, some prev_edge_idx, some next_edge_idx⟩
  let metadata_index := g.edge_metadata.length
  let g1 := { g with edge_metadata := g.edge_metadata ++ [shortcut_metadata] }
  g1.addShortcutEdge w v metadata_index

/-- The inner (forward) loop body of `contract_node`: for the pair
`(w, v)`, skip degenerate pairs, otherwise run the bounded witness search
from the current searcher state and insert the shortcut `w → v` into both
graphs when no witness at or below `combined` was found. -/
def contractPair (node_id w bwdIdx : Nat) (bwd_edge : Edge)
    (acc : Graph × Graph × Dijkstra) (fwd_edge_index : Nat) :
    Graph × Graph × Dijkstra :=
  match acc with
  | (graph, overlay, d) =>
    let fwd_edge := graph.getEdge fwd_edge_index
    let v := fwd_edge.dest_id
    if v = w ∨ v = node_id ∨ w = node_id then (graph, overlay, d)
    else
      let weight_v_u := (overlay.getMeta bwd_edge).weight
      let weight_u_w := (overlay.getMeta fwd_edge).weight
      let combined := weight_v_u + weight_u_w
      match searchSpec d graph v (combined : Weight) 500 with
      | (_witness, d2) =>
        if (combined : Weight) < _witness then
          (add_shortcut graph w v combined bwdIdx fwd_edge_index,
           add_shortcut overlay w v combined bwdIdx fwd_edge_index, d2)
        else (graph, overlay, d2)

/-- The outer (backward) loop body of `contract_node`: read the incoming
edge, initialise the witness searcher at its source ignoring `node_id`, and
process every outgoing edge. -/
def contractBwd (node_id : Nat) (fwd_indices : List Nat)
    (acc : Graph × Graph × Dijkstra) (bwd_edge_index : Nat) :
    Graph × Graph × Dijkstra :=
  match acc with
  | (graph, overlay, d) =>
    let bwd_edge := graph.getEdge bwd_edge_index
    let w := bwd_edge.src_id
    let d1 := d.init w node_id
    fwd_indices.foldl (contractPair node_id w bwd_edge_index bwd_edge)
      (graph, overlay, d1)

/-- `contract_node`: for every incoming edge (`w → u`) initialise the
witness searcher at `w` ignoring `u`, then examine every outgoing edge
(`u → v`). -/
def contract_node (graph overlay : Graph) (d : Dijkstra) (node_id : Nat) :
    Graph × Graph × Dijkstra :=
  let fwd_indices := graph.fwdAdj node_id
  let bwd_indices := graph.bwdAdj node_id
  bwd_indices.foldl (contractBwd node_id fwd_indices) (graph, overlay, d)

/-- `rank_node`: `importance = shortcuts_needed - (in_degree + out_degree)`,
where a pair needs a shortcut when the bounded witness search exceeds the
combined weight; searches run on the given graph (the overlay during
re-ranking) and thread the searcher state. -/
def rank_node (g : Graph) (d : Dijkstra) (node_id : Nat) : Int × Dijkstra :=
  let in_deg : Int := (g.bwd_edge_list.getD node_id []).length
  let out_deg : Int := (g.fwd_edge_list.getD node_id []).length
  let node_degree := in_deg + out_deg
  let (contracted_count, d2) := (g.bwdAdj node_id).foldl
    (fun (acc : Int × Dijkstra) bwd_id =>
      let (cnt, d) := acc
      let bwd_edge := g.getEdge bwd_id
      let bwd_src_id := bwd_edge.src_id
      let d1 := d.init bwd_src_id node_id
      (g.fwdAdj node_id).foldl (fun (acc2 : Int × Dijkstra) fwd_id =>
        let (cnt2, d2) := acc2
        let fwd_edge := g.getEdge fwd_id
        let fwd_dest_id := fwd_edge.dest_id
        if fwd_dest_id = bwd_src_id then (cnt2, d2)
        else
          let weight_v_u := (g.getMeta fwd_edge).weight
          let weight_u_w := (g.getMeta bwd_edge).weight
          let combined := weight_u_w + weight_v_u
          let (witness, d3) := searchSpec d2 g fwd_dest_id (combined : Weight) 500
          if (combined : Weight) < witness then (cnt2 + 1, d3) else (cnt2, d3))
        (cnt, d1))
    (0, d)
  (contracted_count - node_degree, d2)

/-- The neighbour re-ranking step of the contraction loop: look at the edge
from the overlay, take the other endpoint, recompute its importance on the
overlay, raise its rank to at least `neighbor_rank`, and update its queue
priority (a no-op when it is no longer queued). -/
def rerankStep (contracted : Nat) (neighbor_rank : Int)
    (acc : Graph × Dijkstra × List (Nat × Int)) (edge_id : Nat) :
    Graph × Dijkstra × List (Nat × Int) :=
  match acc with
  | (overlay, d, q) =>
    let edge := overlay.getEdge edge_id
    let neighbor_id := if edge.src_id = contracted then edge.dest_id else edge.src_id
    match rank_node overlay d neighbor_id with
    | (rank, d2) =>
      (overlay.raiseRank neighbor_id neighbor_rank, d2, qchange q neighbor_id rank)

/-- The `while let Some((contracted_id, _)) = queue.pop()` loop of
`contract_graph`.  `fuel` only bounds the recursion; the queue loses one
entry per iteration and `change_priority` never inserts, so the caller's
`fuel = queue.length` is exact. -/
def contractLoop (fuel : Nat) (graph overlay : Graph) (d : Dijkstra)
    (q : List (Nat × Int)) : Graph × Graph × Dijkstra :=
  match fuel with
  | 0 => (graph, overlay, d)
  | fuel + 1 =>
    match qpopMin q with
    | none => (graph, overlay, d)
    | some ((contracted, _), q') =>
      let neighbor_rank := (overlay.getNode contracted).rank + 1
      match contract_node graph overlay d contracted with
      | (g1, o1, d1) =>
        match ((o1.bwdAdj contracted) ++ (o1.fwdAdj contracted)).foldl
            (rerankStep contracted neighbor_rank) (o1, d1, q') with
        | (o2, d2, q2) =>
          contractLoop fuel (remove_edges_from_neighbors g1 contracted) o2 d2 q2

/-- `contract_graph(graph, overlay, dijkstra)`: rank every node (pushing in
dense-id order), then contract until the queue is empty.  Returns the final
`(graph, overlay, dijkstra)`. -/
def contract_graph (graph overlay : Graph) (d : Dijkstra) :
    Graph × Graph × Dijkstra :=
  let (q, d1) := graph.nodes.foldl
    (fun (acc : List (Nat × Int) × Dijkstra) node =>
      let (q, d) := acc
      let (r, d2) := rank_node overlay d node.dense_id
      (qpush q node.dense_id r, d2))
    ([], d)
  contractLoop q.length graph overlay d1 q

/-! ## C1: the bidirectional query against the true shortest distance -/

/-- One pass of edge relaxations over the whole edge array, used by the
ground-truth shortest-distance computation `specDist`. -/
def bfRelax (g : Graph) (dists : List Weight) : List Weight :=
  g.edges.foldl (fun ds e =>
    let w := (g.getMeta e).weight
    let alt := ds.getD e.src_id ⊤ + (w : Weight)
    if alt < ds.getD e.dest_id ⊤ then ds.set e.dest_id alt else ds) dists

/-- Modelled from the spec: claim C1's ground truth is "the same
shortest-path cost as a plain Dijkstra on the original graph", i.e. the
true shortest-path distance.  It is modelled as `|V|` rounds of
Bellman–Ford relaxation, which computes exactly the shortest-path
distances (the weights in play are nonnegative) while staying directly
executable for concrete evaluation. -/
def specDist (g : Graph) (s t : Nat) : Weight :=
  let init := (List.range g.nodes.length).map
    (fun v => if v = s then (0 : Weight) else ⊤)
  ((List.range g.nodes.length).foldl (fun ds _ => bfRelax g ds) init).getD t ⊤

/-- A four-node fixture for C1: edges `0→3` (1), `1→3` (2), `2→0` (4),
`2→1` (8), `3→1` (16), `3→2` (32).  The weights are distinct powers of two,
so no two different edge sets have equal total weight and every weight
queue pop in the run below has a unique minimum. -/
def exGraphC1 : Graph :=
  { fwd_edge_list := [[0], [1], [2, 3], [4, 5]]
    bwd_edge_list := [[2], [3, 4], [5], [0, 1]]
    nodes := [⟨0, 0, 0, false, false⟩, ⟨1, 1, 0, false, false⟩,
              ⟨2, 2, 0, false, false⟩, ⟨3, 3, 0, false, false⟩]
    edges := [⟨0, 3, 0⟩, ⟨1, 3, 1⟩, ⟨2, 0, 2⟩, ⟨2, 1, 3⟩, ⟨3, 1, 4⟩, ⟨3, 2, 5⟩]
    edge_metadata :=
      [⟨1, none, none, false, false, none, none⟩,
       ⟨2, none, none, false, false, none, none⟩,
       ⟨4, none, none, false, false, none, none⟩,
       ⟨8, none, none, false, false, none, none⟩,
       ⟨16, none, none, false, false, none, none⟩,
       ⟨32, none, none, false, false, none, none⟩] }

/-- How many entries of the queue share the minimal priority (1 means the
next pop is tie-free, so it does not depend on the external heap's
unspecified order among equal priorities). -/
def qtieCount (q : List (Nat × Int)) : Nat :=
  match qleast q with
  | none => 0
  | some b => (q.filter (fun e => e.2 = b.2)).length

/-- `contractLoop` replayed verbatim, additionally recording each popped
node together with the multiplicity of the minimal priority at that pop. -/
def contractLoopTrace : Nat → Graph → Graph → Dijkstra → List (Nat × Int) →
    List (Nat × Nat) → (Graph × Graph × Dijkstra) × List (Nat × Nat)
  | 0, g, o, d, _, acc => ((g, o, d), acc)
  | fuel + 1, graph, overlay, d, q, acc =>
    match qpopMin q with
    | none => ((graph, overlay, d), acc)
    | some ((contracted, _), q') =>
      let tc := qtieCount q
      let neighbor_rank := (overlay.getNode contracted).rank + 1
      let (g1, o1, d1) := contract_node graph overlay d contracted
      let fwd_neighbors := o1.fwdAdj contracted
      let bwd_neighbors := o1.bwdAdj contracted
      let (o2, d2, q2) := (bwd_neighbors ++ fwd_neighbors).foldl
        (rerankStep contracted neighbor_rank) (o1, d1, q')
      let g2 := remove_edges_from_neighbors g1 contracted
      contractLoopTrace fuel g2 o2 d2 q2 (acc ++ [(contracted, tc)])

/-- `contract_graph` replayed through `contractLoopTrace`. -/
def contract_graph_trace (graph overlay : Graph) (d : Dijkstra) :
    (Graph × Graph × Dijkstra) × List (Nat × Nat) :=
  let (q, d1) := graph.nodes.foldl
    (fun (acc : List (Nat × Int) × Dijkstra) node =>
      let (q, d) := acc
      let (r, d2) := rank_node overlay d node.dense_id
      (qpush q node.dense_id r, d2))
    ([], d)
  contractLoopTrace q.length graph overlay d1 q []

/-- Every pop of the contraction queue in the C1 run has a unique minimal
priority, and the replay agrees with `contract_graph`: the run does not
depend on how the external priority queue orders equal priorities. -/
theorem c1_run_tie_free :
    contract_graph_trace exGraphC1 exGraphC1 (Dijkstra.new 4) =
      (contract_graph exGraphC1 exGraphC1 (Dijkstra.new 4),
        [(1, 1), (2, 1), (0, 1), (3, 1)]) := by
  decide

/-- **C1** — refuted (bug in `bi_dir_dijkstra`): on `exGraphC1`, after
`contract_graph`, the query for `(0, 1)` returns `None` although the true
shortest-path distance is 17 (`0→3→1`), and the query for `(0, 3)` returns
the single-node list `[3]` — not a path from 0 whose total weight could
equal the true distance 1.  The query breaks on the first meeting, omits
the meeting node from the returned path, and prunes by the ranks the
contractor produced, which here leave node 3 lower-ranked than all its
neighbours. -/
theorem c1_query_not_shortest :
    specDist exGraphC1 0 1 = ((17 : ℚ) : Weight) ∧
    bi_dir_dijkstra (contract_graph exGraphC1 exGraphC1 (Dijkstra.new 4)).2.1
      0 1 50 = none ∧
    specDist exGraphC1 0 3 = ((1 : ℚ) : Weight) ∧
    bi_dir_dijkstra (contract_graph exGraphC1 exGraphC1 (Dijkstra.new 4)).2.1
      0 3 50 = some [3] := by
  decide

/-! ## C6: soundness of the inserted shortcuts -/

/-- `modifyAt` seen through `getD`, without assuming `f d = d`: only an
in-range position `i` changes. -/
theorem modifyAt_getD_lt {α : Type} (l : List α) (i : Nat) (f : α → α) (d : α)
    (j : Nat) :
    (modifyAt l i f).getD j d =
      if j = i ∧ j < l.length then f (l.getD j d) else l.getD j d := by
  induction l generalizing i j with
  | nil => simp [modifyAt]
  | cons a t ih =>
    cases i with
    | zero =>
      cases j with
      | zero => simp [modifyAt]
      | succ j => simp [modifyAt]
    | succ i =>
      cases j with
      | zero => simp [modifyAt]
      | succ j =>
        simp only [modifyAt, List.getD_cons_succ, List.length_cons]
        rw [ih]
        by_cases h : j = i ∧ j < t.length
        · rw [if_pos h, if_pos ⟨by omega, by omega⟩]
        · rw [if_neg h, if_neg (by omega)]

/-- A `getD` read is either a member of the list or the default. -/
theorem getD_self_mem {α : Type} (l : List α) (u : Nat) (d : α) :
    l.getD u d ∈ l ∨ l.getD u d = d := by
  rw [List.getD_eq_getElem?_getD]
  rcases h : l[u]? with _ | a
  · right; rfl
  · left; simpa using List.getElem?_mem h

/-- Well-formedness of a graph: every adjacency entry is an edge index in
range, and every edge's metadata index is in range. -/
def WFGraph (g : Graph) : Prop :=
  (∀ u, ∀ id ∈ g.fwdAdj u, id < g.edges.length) ∧
  (∀ u, ∀ id ∈ g.bwdAdj u, id < g.edges.length) ∧
  (∀ i, i < g.edges.length → (g.getEdge i).metadata_index < g.edge_metadata.length)

/-- The bounded (hence decidable) reading of `WFGraph`. -/
def WFGraphB (g : Graph) : Prop :=
  (∀ l ∈ g.fwd_edge_list, ∀ id ∈ l, id < g.edges.length) ∧
  (∀ l ∈ g.bwd_edge_list, ∀ id ∈ l, id < g.edges.length) ∧
  (∀ e ∈ g.edges, e.metadata_index < g.edge_metadata.length)

instance (g : Graph) : Decidable (WFGraphB g) := by
  unfold WFGraphB
  infer_instance

theorem WFGraph_of_B (g : Graph) (h : WFGraphB g) : WFGraph g := by
  obtain ⟨h1, h2, h3⟩ := h
  refine ⟨?_, ?_, ?_⟩
  · intro u id hid
    rcases getD_self_mem g.fwd_edge_list u [] with hm | he
    · exact h1 _ hm id hid
    · rw [Graph.fwdAdj, he] at hid; cases hid
  · intro u id hid
    rcases getD_self_mem g.bwd_edge_list u [] with hm | he
    · exact h2 _ hm id hid
    · rw [Graph.bwdAdj, he] at hid; cases hid
  · intro i hi
    have hmem : g.getEdge i ∈ g.edges := by
      rw [Graph.getEdge, List.getD_eq_getElem?_getD, List.getElem?_eq_getElem hi]
      exact List.getElem_mem hi
    exact h3 _ hmem

/-- The edge array after `add_shortcut`. -/
theorem add_shortcut_edges (g : Graph) (w v : Nat) (c : ℚ) (p n : Nat) :
    (add_shortcut g w v c p n).edges =
      g.edges ++ [⟨w, v, g.edge_metadata.length⟩] := rfl

/-- The metadata array after `add_shortcut`. -/
theorem add_shortcut_md (g : Graph) (w v : Nat) (c : ℚ) (p n : Nat) :
    (add_shortcut g w v c p n).edge_metadata =
      g.edge_metadata ++ [⟨c, none, none, true, false, some p, some n⟩] := rfl

/-- The forward adjacency after `add_shortcut`. -/
theorem add_shortcut_fwd (g : Graph) (w v : Nat) (c : ℚ) (p n : Nat) :
    (add_shortcut g w v c p n).fwd_edge_list =
      modifyAt g.fwd_edge_list w (fun l => l ++ [g.edges.length]) := rfl

/-- The backward adjacency after `add_shortcut`. -/
theorem add_shortcut_bwd (g : Graph) (w v : Nat) (c : ℚ) (p n : Nat) :
    (add_shortcut g w v c p n).bwd_edge_list =
      modifyAt g.bwd_edge_list v (fun l => l ++ [g.edges.length]) := rfl

/-- Reading just past a one-element append. -/
theorem getD_append_self {α : Type} (l : List α) (x d : α) :
    (l ++ [x]).getD l.length d = x := by
  have h := getD_append_right l [x] 0 d
  rw [Nat.add_zero] at h
  rw [h]
  rfl

/-- `add_shortcut` preserves well-formedness. -/
theorem WF_add_shortcut {g : Graph} (h : WFGraph g) (w v : Nat) (c : ℚ)
    (p n : Nat) : WFGraph (add_shortcut g w v c p n) := by
  obtain ⟨h1, h2, h3⟩ := h
  refine ⟨?_, ?_, ?_⟩
  · intro u id hid
    rw [Graph.fwdAdj, add_shortcut_fwd, modifyAt_getD_lt] at hid
    rw [add_shortcut_edges, List.length_append, List.length_singleton]
    by_cases hc : u = w ∧ u < g.fwd_edge_list.length
    · rw [if_pos hc] at hid
      rcases List.mem_append.1 hid with hm | hm
      · have := h1 u id hm
        omega
      · simp only [List.mem_singleton] at hm
        omega
    · rw [if_neg hc] at hid
      have := h1 u id hid
      omega
  · intro u id hid
    rw [Graph.bwdAdj, add_shortcut_bwd, modifyAt_getD_lt] at hid
    rw [add_shortcut_edges, List.length_append, List.length_singleton]
    by_cases hc : u = v ∧ u < g.bwd_edge_list.length
    · rw [if_pos hc] at hid
      rcases List.mem_append.1 hid with hm | hm
      · have := h2 u id hm
        omega
      · simp only [List.mem_singleton] at hm
        omega
    · rw [if_neg hc] at hid
      have := h2 u id hid
      omega
  · intro i hi
    rw [add_shortcut_edges, List.length_append, List.length_singleton] at hi
    rw [add_shortcut_md, List.length_append, List.length_singleton,
      Graph.getEdge, add_shortcut_edges]
    by_cases hlt : i < g.edges.length
    · rw [getD_append_left default hlt]
      have := h3 i hlt
      rw [Graph.getEdge] at this
      omega
    · have hieq : i = g.edges.length := by omega
      subst hieq
      rw [getD_append_self]
      simp

/-- The shortcut-soundness property of claim C6 for the edge at index `i`
of `o`, phrased with all the bounds needed for stability under appends:
the metadata records `prev_edge = some p` and `next_edge = some n`, the
weight is exactly the sum of those two edges' weights, `p`'s source is the
shortcut's source and `n`'s destination is the shortcut's destination. -/
def ShortcutOK (o : Graph) (i : Nat) : Prop :=
  ∃ p n,
    (o.getEdge i).metadata_index < o.edge_metadata.length ∧
    p < o.edges.length ∧ n < o.edges.length ∧
    (o.getEdge p).metadata_index < o.edge_metadata.length ∧
    (o.getEdge n).metadata_index < o.edge_metadata.length ∧
    (o.getMeta (o.getEdge i)).prev_edge = some p ∧
    (o.getMeta (o.getEdge i)).next_edge = some n ∧
    (o.getMeta (o.getEdge i)).weight =
      (o.getMeta (o.getEdge p)).weight + (o.getMeta (o.getEdge n)).weight ∧
    (o.getEdge p).src_id = (o.getEdge i).src_id ∧
    (o.getEdge n).dest_id = (o.getEdge i).dest_id

/-- `g2` extends `g` by appending edges and metadata only. -/
def Extends (g g2 : Graph) : Prop :=
  (∃ E, g2.edges = g.edges ++ E) ∧
  (∃ M, g2.edge_metadata = g.edge_metadata ++ M)

theorem Extends.refl (g : Graph) : Extends g g :=
  ⟨⟨[], (List.append_nil _).symm⟩, ⟨[], (List.append_nil _).symm⟩⟩

theorem Extends.trans {g1 g2 g3 : Graph} (h1 : Extends g1 g2)
    (h2 : Extends g2 g3) : Extends g1 g3 := by
  obtain ⟨⟨E1, hE1⟩, ⟨M1, hM1⟩⟩ := h1
  obtain ⟨⟨E2, hE2⟩, ⟨M2, hM2⟩⟩ := h2
  exact ⟨⟨E1 ++ E2, by rw [hE2, hE1, List.append_assoc]⟩,
    ⟨M1 ++ M2, by rw [hM2, hM1, List.append_assoc]⟩⟩

theorem Extends.edges_le {g g2 : Graph} (h : Extends g g2) :
    g.edges.length ≤ g2.edges.length := by
  obtain ⟨⟨E, hE⟩, _⟩ := h
  rw [hE, List.length_append]
  omega

theorem Extends.md_le {g g2 : Graph} (h : Extends g g2) :
    g.edge_metadata.length ≤ g2.edge_metadata.length := by
  obtain ⟨_, ⟨M, hM⟩⟩ := h
  rw [hM, List.length_append]
  omega

theorem Extends.getEdge_eq {g g2 : Graph} (h : Extends g g2) (j : Nat)
    (hj : j < g.edges.length) : g2.getEdge j = g.getEdge j := by
  obtain ⟨⟨E, hE⟩, _⟩ := h
  rw [Graph.getEdge, Graph.getEdge, hE, getD_append_left default hj]

theorem Extends.getMeta_eq {g g2 : Graph} (h : Extends g g2) (e : Edge)
    (he : e.metadata_index < g.edge_metadata.length) :
    g2.getMeta e = g.getMeta e := by
  obtain ⟨_, ⟨M, hM⟩⟩ := h
  rw [Graph.getMeta, Graph.getMeta, hM, getD_append_left default he]

theorem Extends.add_shortcut (g : Graph) (w v : Nat) (c : ℚ) (p n : Nat) :
    Extends g (add_shortcut g w v c p n) :=
  ⟨⟨_, add_shortcut_edges g w v c p n⟩, ⟨_, add_shortcut_md g w v c p n⟩⟩

/-- `ShortcutOK` is stable under appending edges and metadata. -/
theorem ShortcutOK_extend {o o2 : Graph} (i : Nat) (hx : Extends o o2)
    (hi : i < o.edges.length) (h : ShortcutOK o i) : ShortcutOK o2 i := by
  obtain ⟨p, n, hmi, hp, hn, hpm, hnm, hpe, hne, hwt, hs, hd⟩ := h
  have hgi := hx.getEdge_eq i hi
  have hgp := hx.getEdge_eq p hp
  have hgn := hx.getEdge_eq n hn
  have hmi2 := hx.getMeta_eq (o.getEdge i) hmi
  have hmp2 := hx.getMeta_eq (o.getEdge p) hpm
  have hmn2 := hx.getMeta_eq (o.getEdge n) hnm
  refine ⟨p, n, ?_, ?_, ?_, ?_, ?_, ?_, ?_, ?_, ?_, ?_⟩
  · rw [hgi]; exact lt_of_lt_of_le hmi hx.md_le
  · exact lt_of_lt_of_le hp hx.edges_le
  · exact lt_of_lt_of_le hn hx.edges_le
  · rw [hgp]; exact lt_of_lt_of_le hpm hx.md_le
  · rw [hgn]; exact lt_of_lt_of_le hnm hx.md_le
  · rw [hgi, hmi2]; exact hpe
  · rw [hgi, hmi2]; exact hne
  · rw [hgi, hgp, hgn, hmi2, hmp2, hmn2]; exact hwt
  · rw [hgi, hgp]; exact hs
  · rw [hgi, hgn]; exact hd

/-- The edge appended by `add_shortcut` with the recorded weight sum
satisfies `ShortcutOK` at its (new, last) index. -/
theorem ShortcutOK_new {g : Graph} (hwf : WFGraph g) (w v p n : Nat)
    (hp : p < g.edges.length) (hn : n < g.edges.length)
    (hs : (g.getEdge p).src_id = w) (hd : (g.getEdge n).dest_id = v) :
    ShortcutOK
      (add_shortcut g w v
        ((g.getMeta (g.getEdge p)).weight + (g.getMeta (g.getEdge n)).weight)
        p n)
      g.edges.length := by
  set c := (g.getMeta (g.getEdge p)).weight + (g.getMeta (g.getEdge n)).weight
  have hx := Extends.add_shortcut g w v c p n
  have hpm := hwf.2.2 p hp
  have hnm := hwf.2.2 n hn
  have hnew : (add_shortcut g w v c p n).getEdge g.edges.length =
      ⟨w, v, g.edge_metadata.length⟩ := by
    rw [Graph.getEdge, add_shortcut_edges, getD_append_self]
  have hnewmd : (add_shortcut g w v c p n).getMeta ⟨w, v, g.edge_metadata.length⟩ =
      ⟨c, none, none, true, false, some p, some n⟩ := by
    rw [Graph.getMeta, add_shortcut_md]
    exact getD_append_self _ _ _
  refine ⟨p, n, ?_, ?_, ?_, ?_, ?_, ?_, ?_, ?_, ?_, ?_⟩
  · rw [hnew]
    show g.edge_metadata.length < _
    rw [add_shortcut_md, List.length_append, List.length_singleton]
    omega
  · rw [add_shortcut_edges, List.length_append, List.length_singleton]; omega
  · rw [add_shortcut_edges, List.length_append, List.length_singleton]; omega
  · rw [hx.getEdge_eq p hp, add_shortcut_md, List.length_append,
      List.length_singleton]
    omega
  · rw [hx.getEdge_eq n hn, add_shortcut_md, List.length_append,
      List.length_singleton]
    omega
  · rw [hnew, hnewmd]
  · rw [hnew, hnewmd]
  · rw [hnew, hnewmd, hx.getEdge_eq p hp, hx.getEdge_eq n hn,
      hx.getMeta_eq _ hpm, hx.getMeta_eq _ hnm]
  · rw [hnew, hx.getEdge_eq p hp, hs]
  · rw [hnew, hx.getEdge_eq n hn, hd]

/-- The invariant carried through contraction: the working graph and the
overlay agree on edges and metadata (only adjacency differs), both are
well-formed, and every edge of the overlay at an index at or beyond the
watermark `n0` satisfies `ShortcutOK`. -/
def CNInv (n0 : Nat) (gr ov : Graph) : Prop :=
  gr.edges = ov.edges ∧
  gr.edge_metadata = ov.edge_metadata ∧
  WFGraph gr ∧ WFGraph ov ∧
  (∀ i, n0 ≤ i → i < ov.edges.length → ShortcutOK ov i)

/-- One `contractPair` step preserves the invariant and only appends. -/
theorem contractPair_inv (n0 node_id w bwdIdx fid : Nat) (bwd_edge : Edge)
    (gr ov : Graph) (d : Dijkstra)
    (hinv : CNInv n0 gr ov) (hb : bwdIdx < gr.edges.length)
    (hbe : gr.getEdge bwdIdx = bwd_edge) (hw : bwd_edge.src_id = w)
    (hf : fid < gr.edges.length) :
    CNInv n0 (contractPair node_id w bwdIdx bwd_edge (gr, ov, d) fid).1
      (contractPair node_id w bwdIdx bwd_edge (gr, ov, d) fid).2.1 ∧
    Extends gr (contractPair node_id w bwdIdx bwd_edge (gr, ov, d) fid).1 ∧
    Extends ov (contractPair node_id w bwdIdx bwd_edge (gr, ov, d) fid).2.1 := by
  obtain ⟨hE, hM, hWg, hWo, hSh⟩ := hinv
  simp only [contractPair]
  split
  · exact ⟨⟨hE, hM, hWg, hWo, hSh⟩, Extends.refl gr, Extends.refl ov⟩
  · split
    · refine ⟨⟨?_, ?_, ?_, ?_, ?_⟩, ?_, ?_⟩
      · rw [add_shortcut_edges, add_shortcut_edges, hE, hM]
      · rw [add_shortcut_md, add_shortcut_md, hM]
      · exact WF_add_shortcut hWg _ _ _ _ _
      · exact WF_add_shortcut hWo _ _ _ _ _
      · intro i hi1 hi2
        rw [add_shortcut_edges, List.length_append, List.length_singleton] at hi2
        have hb2 : bwdIdx < ov.edges.length := by rw [← hE]; exact hb
        have hf2 : fid < ov.edges.length := by rw [← hE]; exact hf
        have hge_b : ov.getEdge bwdIdx = bwd_edge := by
          show ov.edges.getD _ _ = _
          rw [← hE]
          exact hbe
        have hge_f : ov.getEdge fid = gr.getEdge fid := by
          show ov.edges.getD _ _ = gr.edges.getD _ _
          rw [hE]
        by_cases hlt : i < ov.edges.length
        · exact ShortcutOK_extend i (Extends.add_shortcut ov _ _ _ _ _) hlt
            (hSh i hi1 hlt)
        · have hieq : i = ov.edges.length := by omega
          subst hieq
          have hkey := ShortcutOK_new hWo w (gr.getEdge fid).dest_id bwdIdx fid
            hb2 hf2 (by rw [hge_b, hw]) (by rw [hge_f])
          rw [hge_b, hge_f] at hkey
          exact hkey
      · exact Extends.add_shortcut gr _ _ _ _ _
      · exact Extends.add_shortcut ov _ _ _ _ _
    · exact ⟨⟨hE, hM, hWg, hWo, hSh⟩, Extends.refl gr, Extends.refl ov⟩

/-- The inner fold of `contract_node` preserves the invariant. -/
theorem foldl_contractPair_inv (n0 node_id w bwdIdx : Nat) (bwd_edge : Edge)
    (hw : bwd_edge.src_id = w) :
    ∀ (L : List Nat) (gr ov : Graph) (d : Dijkstra),
    CNInv n0 gr ov → bwdIdx < gr.edges.length →
    gr.getEdge bwdIdx = bwd_edge →
    (∀ id ∈ L, id < gr.edges.length) →
    CNInv n0 (L.foldl (contractPair node_id w bwdIdx bwd_edge) (gr, ov, d)).1
      (L.foldl (contractPair node_id w bwdIdx bwd_edge) (gr, ov, d)).2.1 ∧
    Extends gr (L.foldl (contractPair node_id w bwdIdx bwd_edge) (gr, ov, d)).1 ∧
    Extends ov
      (L.foldl (contractPair node_id w bwdIdx bwd_edge) (gr, ov, d)).2.1 := by
  intro L
  induction L with
  | nil =>
    intro gr ov d hinv hb hbe hL
    exact ⟨hinv, Extends.refl gr, Extends.refl ov⟩
  | cons f t ih =>
    intro gr ov d hinv hb hbe hL
    rw [List.foldl_cons]
    have hstep := contractPair_inv n0 node_id w bwdIdx f bwd_edge gr ov d hinv
      hb hbe hw (hL f (List.mem_cons_self ..))
    rcases hcp : contractPair node_id w bwdIdx bwd_edge (gr, ov, d) f
      with ⟨gr1, ov1, d1⟩
    rw [hcp] at hstep
    obtain ⟨hinv1, hxg, hxo⟩ := hstep
    have hres := ih gr1 ov1 d1 hinv1 (lt_of_lt_of_le hb hxg.edges_le)
      (by rw [hxg.getEdge_eq bwdIdx hb]; exact hbe)
      (fun id hid => lt_of_lt_of_le (hL id (List.mem_cons_of_mem _ hid))
        hxg.edges_le)
    exact ⟨hres.1, hxg.trans hres.2.1, hxo.trans hres.2.2⟩

/-- One outer (`contractBwd`) step preserves the invariant. -/
theorem contractBwd_inv (n0 node_id : Nat) (fwd_indices : List Nat)
    (gr ov : Graph) (d : Dijkstra) (b : Nat)
    (hinv : CNInv n0 gr ov) (hb : b < gr.edges.length)
    (hfwd : ∀ id ∈ fwd_indices, id < gr.edges.length) :
    CNInv n0 (contractBwd node_id fwd_indices (gr, ov, d) b).1
      (contractBwd node_id fwd_indices (gr, ov, d) b).2.1 ∧
    Extends gr (contractBwd node_id fwd_indices (gr, ov, d) b).1 ∧
    Extends ov (contractBwd node_id fwd_indices (gr, ov, d) b).2.1 := by
  simp only [contractBwd]
  exact foldl_contractPair_inv n0 node_id (gr.getEdge b).src_id b
    (gr.getEdge b) rfl fwd_indices gr ov (d.init (gr.getEdge b).src_id node_id)
    hinv hb rfl hfwd

/-- The outer fold of `contract_node` preserves the invariant. -/
theorem foldl_contractBwd_inv (n0 node_id : Nat) (fwd_indices : List Nat) :
    ∀ (B : List Nat) (gr ov : Graph) (d : Dijkstra),
    CNInv n0 gr ov →
    (∀ id ∈ B, id < gr.edges.length) →
    (∀ id ∈ fwd_indices, id < gr.edges.length) →
    CNInv n0 (B.foldl (contractBwd node_id fwd_indices) (gr, ov, d)).1
      (B.foldl (contractBwd node_id fwd_indices) (gr, ov, d)).2.1 ∧
    Extends gr (B.foldl (contractBwd node_id fwd_indices) (gr, ov, d)).1 ∧
    Extends ov (B.foldl (contractBwd node_id fwd_indices) (gr, ov, d)).2.1 := by
  intro B
  induction B with
  | nil =>
    intro gr ov d hinv hB hfwd
    exact ⟨hinv, Extends.refl gr, Extends.refl ov⟩
  | cons b t ih =>
    intro gr ov d hinv hB hfwd
    rw [List.foldl_cons]
    have hstep := contractBwd_inv n0 node_id fwd_indices gr ov d b hinv
      (hB b (List.mem_cons_self ..)) hfwd
    rcases hcb : contractBwd node_id fwd_indices (gr, ov, d) b
      with ⟨gr1, ov1, d1⟩
    rw [hcb] at hstep
    obtain ⟨hinv1, hxg, hxo⟩ := hstep
    have hres := ih gr1 ov1 d1 hinv1
      (fun id hid => lt_of_lt_of_le (hB id (List.mem_cons_of_mem _ hid))
        hxg.edges_le)
      (fun id hid => lt_of_lt_of_le (hfwd id hid) hxg.edges_le)
    exact ⟨hres.1, hxg.trans hres.2.1, hxo.trans hres.2.2⟩

/-- `contract_node` preserves the invariant: both graphs stay well-formed
and lock-stepped, and every overlay edge past the watermark still
satisfies `ShortcutOK` — including the shortcuts this call inserts. -/
theorem contract_node_inv (n0 : Nat) (gr ov : Graph) (d : Dijkstra)
    (node_id : Nat) (hinv : CNInv n0 gr ov) :
    CNInv n0 (contract_node gr ov d node_id).1
      (contract_node gr ov d node_id).2.1 ∧
    Extends gr (contract_node gr ov d node_id).1 ∧
    Extends ov (contract_node gr ov d node_id).2.1 := by
  simp only [contract_node]
  exact foldl_contractBwd_inv n0 node_id (gr.fwdAdj node_id)
    (gr.bwdAdj node_id) gr ov d hinv
    (hinv.2.2.1.2.1 node_id) (hinv.2.2.1.1 node_id)

/-- `rerankStep` only touches the overlay's nodes (rank raising); all other
fields are unchanged. -/
theorem rerankStep_fst_fields (c : Nat) (nr : Int) (o : Graph) (d : Dijkstra)
    (q : List (Nat × Int)) (e : Nat) :
    (rerankStep c nr (o, d, q) e).1.fwd_edge_list = o.fwd_edge_list ∧
    (rerankStep c nr (o, d, q) e).1.bwd_edge_list = o.bwd_edge_list ∧
    (rerankStep c nr (o, d, q) e).1.edges = o.edges ∧
    (rerankStep c nr (o, d, q) e).1.edge_metadata = o.edge_metadata := by
  simp only [rerankStep]
  split <;> exact ⟨rfl, rfl, rfl, rfl⟩

/-- The re-ranking fold of the contraction loop leaves every overlay field
except the node ranks unchanged. -/
theorem foldl_rerank_fields (c : Nat) (nr : Int) :
    ∀ (L : List Nat) (o : Graph) (d : Dijkstra) (q : List (Nat × Int)),
    (L.foldl (rerankStep c nr) (o, d, q)).1.fwd_edge_list = o.fwd_edge_list ∧
    (L.foldl (rerankStep c nr) (o, d, q)).1.bwd_edge_list = o.bwd_edge_list ∧
    (L.foldl (rerankStep c nr) (o, d, q)).1.edges = o.edges ∧
    (L.foldl (rerankStep c nr) (o, d, q)).1.edge_metadata = o.edge_metadata := by
  intro L
  induction L with
  | nil => intro o d q; exact ⟨rfl, rfl, rfl, rfl⟩
  | cons e t ih =>
    intro o d q
    rw [List.foldl_cons]
    have h1 := rerankStep_fst_fields c nr o d q e
    rcases hrr : rerankStep c nr (o, d, q) e with ⟨o1, d1, q1⟩
    rw [hrr] at h1
    have h2 := ih o1 d1 q1
    exact ⟨h2.1.trans h1.1, h2.2.1.trans h1.2.1, h2.2.2.1.trans h1.2.2.1,
      h2.2.2.2.trans h1.2.2.2⟩

/-- `remove_edges_from_neighbors` keeps edges and metadata and only shrinks
adjacency lists. -/
theorem remove_edges_fields (g : Graph) (c : Nat) :
    (remove_edges_from_neighbors g c).edges = g.edges ∧
    (remove_edges_from_neighbors g c).edge_metadata = g.edge_metadata ∧
    (∀ u id, id ∈ (remove_edges_from_neighbors g c).fwdAdj u → id ∈ g.fwdAdj u) ∧
    (∀ u id, id ∈ (remove_edges_from_neighbors g c).bwdAdj u →
      id ∈ g.bwdAdj u) := by
  obtain ⟨hE1, hM1, hN1, hF1⟩ :=
    foldl_removeBwdStep_frame (g.fwd_edge_list.getD c []) g
  obtain ⟨hE2, hM2, hN2, hB2⟩ :=
    foldl_removeFwdStep_frame (g.bwd_edge_list.getD c [])
      (List.foldl removeBwdStep g (g.fwd_edge_list.getD c []))
  have hEdges : (remove_edges_from_neighbors g c).edges = g.edges := by
    show (List.foldl removeFwdStep _ _).edges = g.edges
    rw [hE2, hE1]
  have hMeta :
      (remove_edges_from_neighbors g c).edge_metadata = g.edge_metadata := by
    show (List.foldl removeFwdStep _ _).edge_metadata = g.edge_metadata
    rw [hM2, hM1]
  refine ⟨hEdges, hMeta, ?_, ?_⟩
  · intro u id hid
    have hchar : (remove_edges_from_neighbors g c).fwdAdj u =
        if u = c then [] else
          ((List.foldl removeBwdStep g
            (g.fwd_edge_list.getD c [])).fwd_edge_list.getD u []).filter
            (fun x => decide ¬(x ∈ g.bwd_edge_list.getD c [] ∧
              ((List.foldl removeBwdStep g
                (g.fwd_edge_list.getD c [])).getEdge x).src_id = u)) := by
      show ((List.foldl removeFwdStep _ _).fwd_edge_list.set c []).getD u [] = _
      rw [getD_set_nil, foldl_removeFwdStep_fwd]
    rw [hchar] at hid
    by_cases hu : u = c
    · rw [if_pos hu] at hid; cases hid
    · rw [if_neg hu, hF1] at hid
      rw [Graph.fwdAdj]
      exact (List.mem_filter.1 hid).1
  · intro u id hid
    have hchar : (remove_edges_from_neighbors g c).bwdAdj u =
        if u = c then [] else
          (g.bwd_edge_list.getD u []).filter
            (fun x => decide ¬(x ∈ g.fwd_edge_list.getD c [] ∧
              (g.getEdge x).dest_id = u)) := by
      show ((List.foldl removeFwdStep _ _).bwd_edge_list.set c []).getD u [] = _
      rw [getD_set_nil, hB2, foldl_removeBwdStep_bwd]
    rw [hchar] at hid
    by_cases hu : u = c
    · rw [if_pos hu] at hid; cases hid
    · rw [if_neg hu] at hid
      rw [Graph.bwdAdj]
      exact (List.mem_filter.1 hid).1

/-- `remove_edges_from_neighbors` preserves well-formedness. -/
theorem WF_remove (g : Graph) (c : Nat) (h : WFGraph g) :
    WFGraph (remove_edges_from_neighbors g c) := by
  obtain ⟨hE, hM, hfw, hbw⟩ := remove_edges_fields g c
  refine ⟨?_, ?_, ?_⟩
  · intro u id hid
    rw [hE]
    exact h.1 u id (hfw u id hid)
  · intro u id hid
    rw [hE]
    exact h.2.1 u id (hbw u id hid)
  · intro i hi
    rw [hE] at hi
    have hgi : (remove_edges_from_neighbors g c).getEdge i = g.getEdge i := by
      show (remove_edges_from_neighbors g c).edges.getD _ _ = _
      rw [hE]
      rfl
    rw [hgi, hM]
    exact h.2.2 i hi

/-- Well-formedness transfers along equality of the relevant fields. -/
theorem WFGraph_congr {a b : Graph} (hf : b.fwd_edge_list = a.fwd_edge_list)
    (hb : b.bwd_edge_list = a.bwd_edge_list) (he : b.edges = a.edges)
    (hm : b.edge_metadata = a.edge_metadata) (h : WFGraph a) : WFGraph b := by
  refine ⟨?_, ?_, ?_⟩
  · intro u id hid
    rw [Graph.fwdAdj, hf] at hid
    rw [he]
    exact h.1 u id hid
  · intro u id hid
    rw [Graph.bwdAdj, hb] at hid
    rw [he]
    exact h.2.1 u id hid
  · intro i hi
    rw [he] at hi
    have hgi : b.getEdge i = a.getEdge i := by
      show b.edges.getD _ _ = _
      rw [he]
      rfl
    rw [hgi, hm]
    exact h.2.2 i hi

/-- `ShortcutOK` transfers along equality of edges and metadata. -/
theorem ShortcutOK_congr {a b : Graph} (he : b.edges = a.edges)
    (hm : b.edge_metadata = a.edge_metadata) (i : Nat) (h : ShortcutOK a i) :
    ShortcutOK b i := by
  have hg : ∀ j, b.getEdge j = a.getEdge j := by
    intro j
    show b.edges.getD _ _ = _
    rw [he]
    rfl
  have hmt : ∀ e, b.getMeta e = a.getMeta e := by
    intro e
    show b.edge_metadata.getD _ _ = _
    rw [hm]
    rfl
  obtain ⟨p, n, hmi, hp, hn, hpm, hnm, hpe, hne, hwt, hs, hd⟩ := h
  exact ⟨p, n, by rw [hg, hm]; exact hmi, by rw [he]; exact hp,
    by rw [he]; exact hn, by rw [hg, hm]; exact hpm, by rw [hg, hm]; exact hnm,
    by rw [hg, hmt]; exact hpe, by rw [hg, hmt]; exact hne,
    by rw [hg, hg, hg, hmt, hmt, hmt]; exact hwt,
    by rw [hg, hg]; exact hs, by rw [hg, hg]; exact hd⟩

/-- The contraction loop preserves the invariant (and only ever appends to
the overlay's edge and metadata arrays). -/
theorem contractLoop_inv (n0 : Nat) :
    ∀ (fuel : Nat) (gr ov : Graph) (d : Dijkstra) (q : List (Nat × Int)),
    CNInv n0 gr ov →
    CNInv n0 (contractLoop fuel gr ov d q).1 (contractLoop fuel gr ov d q).2.1 ∧
    Extends ov (contractLoop fuel gr ov d q).2.1 := by
  intro fuel
  induction fuel with
  | zero => intro gr ov d q h; exact ⟨h, Extends.refl ov⟩
  | succ fuel ih =>
    intro gr ov d q h
    cases hq : qpopMin q with
    | none =>
      simp only [contractLoop, hq]
      exact ⟨h, Extends.refl ov⟩
    | some pq =>
      rcases pq with ⟨⟨contracted, pr⟩, q'⟩
      simp only [contractLoop, hq]
      have hcn := contract_node_inv n0 gr ov d contracted h
      rcases hc : contract_node gr ov d contracted with ⟨g1, o1, d1⟩
      rw [hc] at hcn
      obtain ⟨hinv1, hxg, hxo⟩ := hcn
      have hfld := foldl_rerank_fields contracted ((ov.getNode contracted).rank + 1)
        (o1.bwdAdj contracted ++ o1.fwdAdj contracted) o1 d1 q'
      rcases hrr : (o1.bwdAdj contracted ++ o1.fwdAdj contracted).foldl
          (rerankStep contracted ((ov.getNode contracted).rank + 1)) (o1, d1, q')
        with ⟨o2, d2, q2⟩
      rw [hrr] at hfld
      obtain ⟨hE, hM, hWg, hWo, hSh⟩ := hinv1
      have hinv2 : CNInv n0 (remove_edges_from_neighbors g1 contracted) o2 := by
        obtain ⟨hrE, hrM, hrf, hrb⟩ := remove_edges_fields g1 contracted
        refine ⟨?_, ?_, WF_remove g1 contracted hWg,
          WFGraph_congr hfld.1 hfld.2.1 hfld.2.2.1 hfld.2.2.2 hWo, ?_⟩
        · rw [hrE, hE, hfld.2.2.1]
        · rw [hrM, hM, hfld.2.2.2]
        · intro i hi1 hi2
          rw [hfld.2.2.1] at hi2
          exact ShortcutOK_congr hfld.2.2.1 hfld.2.2.2 i (hSh i hi1 hi2)
      have hres := ih (remove_edges_from_neighbors g1 contracted) o2 d2 q2 hinv2
      have hxo2 : Extends o1 o2 :=
        ⟨⟨[], by rw [hfld.2.2.1, List.append_nil]⟩,
         ⟨[], by rw [hfld.2.2.2, List.append_nil]⟩⟩
      exact ⟨hres.1, (hxo.trans hxo2).trans hres.2⟩

/-- **C6** — every shortcut edge inserted during contraction is sound: on a
well-formed input graph (with the overlay starting as a clone of it, as in
`main.rs`), the overlay's edge array after `contract_graph` is the original
array plus appended shortcuts, and every edge at an index at or past the
original length records `prev_edge = some p` and `next_edge = some n` with
weight exactly `weight(p) + weight(n)`, `p`'s source the shortcut's source
`w`, and `n`'s destination the shortcut's destination `v`. -/
theorem c6_shortcut_soundness (g : Graph) (d : Dijkstra) (hwf : WFGraph g) :
    (∃ E, (contract_graph g g d).2.1.edges = g.edges ++ E) ∧
    (∀ i, g.edges.length ≤ i →
      i < (contract_graph g g d).2.1.edges.length →
      ShortcutOK (contract_graph g g d).2.1 i) := by
  have hinv : CNInv g.edges.length g g :=
    ⟨rfl, rfl, hwf, hwf, fun i hi1 hi2 => absurd hi1 (by omega)⟩
  simp only [contract_graph]
  refine ⟨?_, ?_⟩
  · exact (contractLoop_inv g.edges.length _ g g _ _ hinv).2.1
  · exact (contractLoop_inv g.edges.length _ g g _ _ hinv).1.2.2.2.2

/-- Witness for C6: `exGraphC1` is well-formed, and the one shortcut the
contraction inserts (index 6, `3 → 0` via node 2) satisfies `ShortcutOK`. -/
theorem c6_shortcut_soundness_witness :
    WFGraph exGraphC1 ∧
    ShortcutOK (contract_graph exGraphC1 exGraphC1 (Dijkstra.new 4)).2.1 6 := by
  have hwf : WFGraph exGraphC1 := WFGraph_of_B exGraphC1 (by decide)
  exact ⟨hwf, (c6_shortcut_soundness exGraphC1 (Dijkstra.new 4) hwf).2 6
    (by decide) (by decide)⟩

/-! ## C2: the shortcut unpacker (`routing-engine/src/engine/visitor/shortcut_visitor.rs`)

`shortcut_visitor.rs` is present in the snapshot, but the API it consumes is
not: the snapshot's `csr_graph.rs` has no `via_node` field on `CSREdgeCold`,
no `fwd_neighbors_cold`/`bwd_neighbors_cold` iterators, and no `QueryResult`
type anywhere.  Those dependencies are modelled below from the spec's
description of `values_cold[]` (per-edge records with endpoints, section
3.3) together with the visitor's own usage: records carry an optional `via`
node, and the cold iterators yield `(edge_id, cold)` pairs of the edges
leaving (resp. entering) a node, in edge-id order. -/

/-- Modelled from the spec: a cold edge record in the `via_node` style the
visitor consumes — stable edge id, the packed via node for shortcuts
(`none` for original edges) and the two endpoints. -/
structure CSREdgeColdV where
  id : Nat
  via_node : Option Nat
  from_node : Nat
  to_node : Nat
deriving Repr, DecidableEq, Inhabited

/-- Modelled from the spec: the part of the CSR graph the unpacker reads —
the `values_cold[]` array, indexed by edge id. -/
structure UnpackGraph where
  values_cold : List CSREdgeColdV
deriving Repr, DecidableEq, Inhabited

/-- Modelled from the spec: `fwd_neighbors_cold(u)` — the `(edge_id, cold)`
pairs of the edges leaving `u`, in edge-id order. -/
def UnpackGraph.fwdColds (g : UnpackGraph) (u : Nat) :
    List (Nat × CSREdgeColdV) :=
  ((List.range g.values_cold.length).map
    (fun i => (i, g.values_cold.getD i default))).filter
    (fun p => p.2.from_node = u)

/-- Modelled from the spec: `bwd_neighbors_cold(v)` — the `(edge_id, cold)`
pairs of the edges entering `v`, in edge-id order. -/
def UnpackGraph.bwdColds (g : UnpackGraph) (v : Nat) :
    List (Nat × CSREdgeColdV) :=
  ((List.range g.values_cold.length).map
    (fun i => (i, g.values_cold.getD i default))).filter
    (fun p => p.2.to_node = v)

/-- The visitor's forward `find_map`: the first cold record of an edge
`u → x`. -/
def findFwdEdge (g : UnpackGraph) (u x : Nat) : Option CSREdgeColdV :=
  (g.fwdColds u).findSome?
    (fun p => if p.2.to_node = x then some (g.values_cold.getD p.1 default)
      else none)

/-- The visitor's backward `find_map`: the first cold record of an edge
`x → v`, found through `v`'s backward neighbours. -/
def findBwdEdge (g : UnpackGraph) (v x : Nat) : Option CSREdgeColdV :=
  (g.bwdColds v).findSome?
    (fun p => if p.2.from_node = x then some (g.values_cold.getD p.1 default)
      else none)

/-- The `if out.last() != Some(&x) { out.push(x) }` idiom of the visitor. -/
def dedupPush (out : List Nat) (x : Nat) : List Nat :=
  if out.getLast? ≠ some x then out ++ [x] else out

/-- `ShortcutVisitor::visit_shortcut`: an original edge (no via node) emits
nothing; a forward shortcut emits `from_node` (deduplicated), recurses into
the halves `from → via` and `via → to` in that order, then emits `to_node`;
a backward shortcut emits `to_node`, recurses into `via → to` then
`from → via`, then emits `from_node`.  A failed forward lookup or a failed
first backward lookup is the Rust `todo!()` panic, modelled as `none`; a
failed second backward lookup only logs and continues.  `fuel` bounds the
recursion depth (the Rust recursion is bounded by shortcut nesting). -/
def visit_shortcut (g : UnpackGraph) :
    Nat → CSREdgeColdV → List Nat → Bool → Option (List Nat)
  | 0, _, _, _ => none
  | fuel + 1, edge, out, is_fwd =>
    match edge.via_node with
    | none => some out
    | some via =>
      if is_fwd then
        let out1 := dedupPush out edge.from_node
        match findFwdEdge g edge.from_node via with
        | none => none
        | some first_edge =>
          match visit_shortcut g fuel first_edge out1 is_fwd with
          | none => none
          | some out2 =>
            match findFwdEdge g via edge.to_node with
            | none => none
            | some second_edge =>
              match visit_shortcut g fuel second_edge out2 is_fwd with
              | none => none
              | some out3 => some (dedupPush out3 edge.to_node)
      else
        let out1 := dedupPush out edge.to_node
        match findBwdEdge g edge.to_node via with
        | none => none
        | some first_edge =>
          match visit_shortcut g fuel first_edge out1 is_fwd with
          | none => none
          | some out2 =>
            match
              (match findBwdEdge g via edge.from_node with
               | none => some out2
               | some second_edge => visit_shortcut g fuel second_edge out2 is_fwd)
            with
            | none => none
            | some out3 => some (dedupPush out3 edge.from_node)

/-- A packed path entry (`QueryResult { edge_id, is_fwd }`). -/
structure QueryResult where
  edge_id : Nat
  is_fwd : Bool
deriving Repr, DecidableEq, Inhabited

/-- `ShortcutVisitor::visit`: run `visit_shortcut` over every packed entry,
accumulating the emitted node ids. -/
def ShortcutVisitor.visit (g : UnpackGraph) (packed : List QueryResult)
    (fuel : Nat) : Option (List Nat) :=
  packed.foldl
    (fun acc qr =>
      match acc with
      | none => none
      | some out =>
        visit_shortcut g fuel (g.values_cold.getD qr.edge_id default) out
          qr.is_fwd)
    (some [])

/-- A two-record unpack graph: one original edge `0 → 1` and nothing else. -/
def exUnpack : UnpackGraph := ⟨[⟨0, none, 0, 1⟩]⟩

/-- The forward packed entry for the original edge `0 → 1` of `exUnpack`
emits nothing: the output is `[]`, not the `[0]` the claim's original-edge
rule requires (`visit_shortcut` is a no-op whenever `via_node` is `None`). -/
theorem c2_counterexample :
    ShortcutVisitor.visit exUnpack [⟨0, true⟩] 5 = some [] ∧
    ¬([] : List Nat) = [0] := by
  decide

/-- An original edge contributes nothing, whatever the direction. -/
theorem visit_shortcut_original (g : UnpackGraph) (fuel : Nat)
    (edge : CSREdgeColdV) (out : List Nat) (dir : Bool)
    (hv : edge.via_node = none) :
    visit_shortcut g (fuel + 1) edge out dir = some out := by
  simp only [visit_shortcut, hv]

/-- A packed path of original edges only unpacks to the empty output. -/
theorem visit_all_original (g : UnpackGraph) (fuel : Nat) :
    ∀ (packed : List QueryResult) (out : List Nat),
    (∀ qr ∈ packed,
      (g.values_cold.getD qr.edge_id default).via_node = none) →
    packed.foldl
      (fun acc qr =>
        match acc with
        | none => none
        | some out =>
          visit_shortcut g (fuel + 1)
            (g.values_cold.getD qr.edge_id default) out qr.is_fwd)
      (some out) = some out := by
  intro packed
  induction packed with
  | nil => intro out hall; rfl
  | cons qr t ih =>
    intro out hall
    rw [List.foldl_cons]
    have hstep : visit_shortcut g (fuel + 1)
        (g.values_cold.getD qr.edge_id default) out qr.is_fwd = some out :=
      visit_shortcut_original g fuel _ out qr.is_fwd
        (hall qr (List.mem_cons_self ..))
    simp only [hstep]
    exact ih out (fun x hx => hall x (List.mem_cons_of_mem _ hx))

/-- **C2** — corrected: the unpacker emits nothing for an original edge
(the claim's emit-endpoint rule is wrong), and for a shortcut it emits the
endpoints around direction-respecting recursions exactly as claimed: a
forward shortcut emits `from_node`, unpacks `from → via` then `via → to`,
and emits `to_node`; a backward shortcut emits `to_node`, unpacks the two
halves in the reverse order, and emits `from_node` — all emissions
deduplicated against the last emitted node. -/
theorem c2_unpacker_amended :
    (∀ (g : UnpackGraph) (fuel : Nat) (packed : List QueryResult),
      (∀ qr ∈ packed,
        (g.values_cold.getD qr.edge_id default).via_node = none) →
      ShortcutVisitor.visit g packed (fuel + 1) = some []) ∧
    (∀ (g : UnpackGraph) (fuel : Nat) (edge : CSREdgeColdV) (out : List Nat)
      (via : Nat) (e1 e2 : CSREdgeColdV),
      edge.via_node = some via →
      findFwdEdge g edge.from_node via = some e1 → e1.via_node = none →
      findFwdEdge g via edge.to_node = some e2 → e2.via_node = none →
      visit_shortcut g (fuel + 2) edge out true =
        some (dedupPush (dedupPush out edge.from_node) edge.to_node)) ∧
    (∀ (g : UnpackGraph) (fuel : Nat) (edge : CSREdgeColdV) (out : List Nat)
      (via : Nat) (e1 e2 : CSREdgeColdV),
      edge.via_node = some via →
      findBwdEdge g edge.to_node via = some e1 → e1.via_node = none →
      findBwdEdge g via edge.from_node = some e2 → e2.via_node = none →
      visit_shortcut g (fuel + 2) edge out false =
        some (dedupPush (dedupPush out edge.to_node) edge.from_node)) := by
  refine ⟨?_, ?_, ?_⟩
  · intro g fuel packed hall
    exact visit_all_original g fuel packed [] hall
  · intro g fuel edge out via e1 e2 hv h1 he1 h2 he2
    simp [visit_shortcut, hv, h1, h2, he1, he2]
  · intro g fuel edge out via e1 e2 hv h1 he1 h2 he2
    simp [visit_shortcut, hv, h1, h2, he1, he2]

/-- An unpack graph with a shortcut `0 → 1` via node 2 packing the original
edges `0 → 2` and `2 → 1`. -/
def exUnpack2 : UnpackGraph := ⟨[⟨0, none, 0, 2⟩, ⟨1, none, 2, 1⟩, ⟨2, some 2, 0, 1⟩]⟩

/-- Witness for C2: unpacking the forward shortcut of `exUnpack2` from the
empty output emits `[0, 1]`, via the amended theorem. -/
theorem c2_unpacker_amended_witness :
    visit_shortcut exUnpack2 7 ⟨2, some 2, 0, 1⟩ [] true = some [0, 1] := by
  have h := c2_unpacker_amended.2.1 exUnpack2 5 ⟨2, some 2, 0, 1⟩ [] 2
    ⟨0, none, 0, 2⟩ ⟨1, none, 2, 1⟩ rfl (by decide) rfl (by decide) rfl
  rw [h]
  decide

end Shepherd
